import Mathlib

/-!
# Verification of the `http_server` extension

Shallow embedding, in Lean 4, of `src/flockwave/server/ext/http_server/extension.py`
and proofs about it.  Pure fragments of the Python code become Lean functions;
the mutable module-level list `proposed_index_pages` becomes explicit state
passing; the serve/retry loop becomes a step function over the retry counter;
`try`/`finally` blocks become an explicit trace combinator.  All definitions
are executable so that concrete runs can be checked by `decide`.
-/

namespace HttpServer

/-! ## Serve retry policy (`run`, extension.py lines 242-274)

The body of `run`'s `while True:` loop catches `Exception` from `serve`, and:

```
if current_time() - started_at >= 5: retries = 0
if retries < max_retries: await sleep(1); retries += 1   (loop again)
else: raise
```

Time is modelled in abstract units (`Nat`); one failure is described by the
elapsed time `current_time() - started_at` of the serve attempt it ended.
-/

/-- `max_retries = 3` in `run`. -/
def max_retries : Nat := 3

/-- The uptime threshold (5 time units) after which the retry counter resets,
from `if current_time() - started_at >= 5`. -/
def reset_threshold : Nat := 5

/-- One pass of `run`'s `except Exception` handler: given the current retry
counter and the elapsed uptime of the failed serve attempt, returns
`some newCounter` when the loop retries (after `sleep(1)` and with a fresh
`started_at`), and `none` when the exception is re-raised to the caller. -/
def retryStep (retries : Nat) (elapsed : Nat) : Option Nat :=
  let retries := if reset_threshold ≤ elapsed then 0 else retries
  if retries < max_retries then some (retries + 1) else none

/-- Runs `run`'s retry loop over a finite sequence of serve failures with the
given elapsed uptimes.  `some r` means every failure was retried (counter ends
at `r`, the run is still alive); `none` means some failure was re-raised
(fatal). -/
def runFailures : Nat → List Nat → Option Nat
  | r, [] => some r
  | r, e :: es =>
    match retryStep r e with
    | some r2 => runFailures r2 es
    | none => none

/-! ## `run`'s missing-address guard (extension.py lines 215-221) -/

/-- Outcome of a call to `run`. -/
inductive RunOutcome where
  | warnedNoAddress
  | completed (finalRetries : Nat)
  | raisedFatal
deriving DecidableEq, Repr

/-- Embeds the control flow of `run`: when `exports.get("address")` is `None`
the function logs a warning and returns before any server is started;
otherwise it enters the serve loop, whose failure behaviour is `runFailures`. -/
def run_model (address : Option (String × Nat)) (failures : List Nat) : RunOutcome :=
  match address with
  | none => RunOutcome.warnedNoAddress
  | some _ =>
    match runFailures 0 failures with
    | some r => RunOutcome.completed r
    | none => RunOutcome.raisedFatal

/-! ## `load`'s host default (extension.py lines 195-204) and the schema -/

/-- The host component of the address computed by `load`:
`configuration.get("host", "localhost")`.  The input is the value stored under
the `"host"` key of the configuration, if any. -/
def load_host (config_host : Option String) : String :=
  config_host.getD "localhost"

/-- The `"default"` entry of the `"host"` property in the module-level
`schema` dictionary (extension.py line 296). -/
def schema_host_default : String := "127.0.0.1"

/-! ## The index route (`index`, extension.py lines 59-67) -/

/-- Responses the `index` route can produce. -/
inductive HttpResponse where
  | redirectTo (url : String)
  | notFound
deriving DecidableEq, Repr

/-- Python truthiness of an `Optional[str]`: `None` and `""` are falsy. -/
def pyTruthy : Option String → Bool
  | none => false
  | some s => !(s == "")

/-- Embeds the `index` route handler:

```
index_url = get_index_url()
if index_url:
    if request.query_string:
        index_url += "?" + request.query_string.decode("utf-8")
    return redirect(index_url)
else:
    abort(404)
```

`index_url` is the result of `get_index_url()` (the resolved URL of the
current winner, or `None`); `query_string` is the request's query string
(empty when absent). -/
def index_route (index_url : Option String) (query_string : String) : HttpResponse :=
  if pyTruthy index_url then
    let u := index_url.getD ""
    let u := if !(query_string == "") then u ++ "?" ++ query_string else u
    HttpResponse.redirectTo u
  else
    HttpResponse.notFound

/-! ## Scoped mount / scoped proposal (`mounted` lines 117-139,
`proposed_index_page` lines 174-189)

Both are `@contextmanager` generators of the shape
`acquire; try: yield; finally: release`.  We embed them as trace
transformers: a computation is a pair of the list of events it emits and its
exit kind (normal return or exception), and `try`/`finally` appends the
`finally` block's events whatever the body's exit kind was. -/

/-- Events observable at the extension boundary. -/
inductive Ev where
  | mountApp
  | revokeApp
  | proposePage
  | disposePage
  | bodyStep
deriving DecidableEq, Repr

/-- How a `with` body exits: normal return, or a raised exception
(which includes cancellation). -/
inductive ExitKind where
  | normal
  | raised
deriving DecidableEq, Repr

/-- Python `try: body finally: fin`: the `finally` suite runs after the body
on every exit path, and the body's outcome (value or re-raised exception) is
preserved. -/
def tryFinally (body : List Ev × ExitKind) (fin : List Ev) : List Ev × ExitKind :=
  (body.1 ++ fin, body.2)

/-- Embeds `mounted(...)`: calls `mount(...)` on entry (obtaining
`remover : Optional[Disposer]`), then runs the body under
`try: yield finally: if remover: remover()`.  The remover argument is the
trace the disposer emits when invoked (`none` when `mount` returned `None`,
as it does for blueprints). -/
def mounted_cm (remover : Option (List Ev)) (body : List Ev × ExitKind) :
    List Ev × ExitKind :=
  let rest := tryFinally body (match remover with | some r => r | none => [])
  (Ev.mountApp :: rest.1, rest.2)

/-- Embeds `proposed_index_page(...)`: calls `propose_index_page` on entry
(obtaining the disposer), then runs the body under
`try: yield finally: disposer()`. -/
def proposed_index_page_cm (body : List Ev × ExitKind) : List Ev × ExitKind :=
  let rest := tryFinally body [Ev.disposePage]
  (Ev.proposePage :: rest.1, rest.2)

/-! ## The index proposal heap

`propose_index_page` / its disposer maintain the module-level list
`proposed_index_pages` with CPython's `heapq` functions (`heappush` on
propose; swap-with-last, `pop`, `heapify` on revoke).  We first embed the
`heapq` primitives generically over an element type `α` and a Python-style
strict comparison `lt : α → α → Bool`.

Indexing follows CPython exactly: the list is a binary min-heap in array
layout, the parent of position `j > 0` is `(j-1)/2` and the children of `p`
are `2p+1` and `2p+2`.  Python's in-place index assignment `heap[i] = v`
becomes `List.set`, and reads become `List.getD` (every read performed by the
algorithms is in bounds, so the `default` value is never observed).

The two sift loops of CPython terminate because the position strictly moves
toward the root (`_siftdown`) or toward the leaves (`_siftup`); we give the
recursion a structural counter that is at least the number of iterations the
Python loop performs, so the Lean functions compute by kernel reduction and
agree with the loops whenever the counter is big enough (which the wrappers
guarantee). -/

/-- CPython `_siftdown(heap, startpos, pos)`, with `newitem = heap[pos]` read
off at the call site.  Moves the hole at `pos` toward the root while
`newitem < parent`, then stores `newitem`:

```
while pos > startpos:
    parentpos = (pos - 1) >> 1
    parent = heap[parentpos]
    if newitem < parent:
        heap[pos] = parent; pos = parentpos; continue
    break
heap[pos] = newitem
```

`fuel` is a structural bound on the number of iterations; since each
iteration strictly decreases `pos`, any `fuel ≥ pos` is exact (at `fuel = 0`
and `pos ≤ fuel` we have `pos = 0`, where the loop guard fails and Python
also stores `newitem` at `pos`). -/
def siftdownLoop {α : Type} [Inhabited α] (lt : α → α → Bool) (startpos : Nat) :
    Nat → Nat → List α → α → List α
  | 0, pos, heap, newitem => heap.set pos newitem
  | fuel + 1, pos, heap, newitem =>
    if startpos < pos then
      let parentpos := (pos - 1) / 2
      let parent := heap.getD parentpos default
      if lt newitem parent then
        siftdownLoop lt startpos fuel parentpos (heap.set pos parent) newitem
      else
        heap.set pos newitem
    else
      heap.set pos newitem

/-- `_siftdown(heap, startpos, pos)` with `newitem` passed explicitly. -/
def siftdown {α : Type} [Inhabited α] (lt : α → α → Bool)
    (startpos pos : Nat) (heap : List α) (newitem : α) : List α :=
  siftdownLoop lt startpos pos pos heap newitem

/-- CPython `heappush(heap, item)`: `heap.append(item)` followed by
`_siftdown(heap, 0, len(heap)-1)` (whose `newitem` read is `item`). -/
def heappush {α : Type} [Inhabited α] (lt : α → α → Bool)
    (heap : List α) (item : α) : List α :=
  siftdown lt 0 heap.length (heap ++ [item]) item

/-- CPython `_siftup(heap, pos)`'s main loop, with `startpos = pos` and
`newitem = heap[pos]` read off at the call site:

```
while childpos < endpos:
    rightpos = childpos + 1
    if rightpos < endpos and not heap[childpos] < heap[rightpos]:
        childpos = rightpos
    heap[pos] = heap[childpos]
    pos = childpos
    childpos = 2*pos + 1
heap[pos] = newitem
_siftdown(heap, startpos, pos)
```

Each iteration strictly increases `pos` while keeping it below the (constant)
length, so any `fuel` with `heap.length ≤ fuel + pos` is exact (at `fuel = 0`
that forces the loop guard `2*pos+1 < heap.length` to fail). -/
def siftupLoop {α : Type} [Inhabited α] (lt : α → α → Bool) (startpos : Nat) :
    Nat → Nat → List α → α → List α
  | 0, pos, heap, newitem => siftdown lt startpos pos (heap.set pos newitem) newitem
  | fuel + 1, pos, heap, newitem =>
    if 2 * pos + 1 < heap.length then
      let childpos := 2 * pos + 1
      let rightpos := childpos + 1
      let cpos :=
        if rightpos < heap.length &&
            !(lt (heap.getD childpos default) (heap.getD rightpos default)) then
          rightpos
        else childpos
      siftupLoop lt startpos fuel cpos (heap.set pos (heap.getD cpos default)) newitem
    else
      siftdown lt startpos pos (heap.set pos newitem) newitem

/-- CPython `_siftup(heap, pos)` (reads `newitem = heap[pos]`, `startpos = pos`). -/
def siftup {α : Type} [Inhabited α] (lt : α → α → Bool)
    (pos : Nat) (heap : List α) : List α :=
  siftupLoop lt pos heap.length pos heap (heap.getD pos default)

/-- CPython `heapify(x)`'s loop `for i in reversed(range(n//2)): _siftup(x, i)`,
counting `k` down from `n//2`. -/
def heapifyLoop {α : Type} [Inhabited α] (lt : α → α → Bool) :
    Nat → List α → List α
  | 0, heap => heap
  | i + 1, heap => heapifyLoop lt i (siftup lt i heap)

/-- CPython `heapify(x)`. -/
def pyHeapify {α : Type} [Inhabited α] (lt : α → α → Bool) (heap : List α) : List α :=
  heapifyLoop lt (heap.length / 2) heap

/-! ## `ProposedIndexPage` and the module state -/

/-- Embeds

```
@dataclass(order=True)
class ProposedIndexPage:
    priority: int = 0
    route: str = "/"
```

`propose_index_page` stores the *negated* proposed priority in the
`priority` field, so that `heapq`'s min-heap surfaces the maximum proposed
priority first. -/
structure ProposedIndexPage where
  priority : Int := 0
  route : String := "/"
deriving DecidableEq, Repr

instance : Inhabited ProposedIndexPage := ⟨{}⟩

/-- Python `<` on strings, element by element: lexicographic comparison of
the code-point sequences.  (Defined structurally so it computes by kernel
reduction.) -/
def listCharLt : List Char → List Char → Bool
  | _, [] => false
  | [], _ :: _ => true
  | a :: as, b :: bs =>
    if a < b then true else if b < a then false else listCharLt as bs

/-- Python `<` on strings. -/
def strLt (a b : String) : Bool := listCharLt a.data b.data

/-- The `<` generated by `@dataclass(order=True)`: lexicographic comparison of
the field tuple `(priority, route)`; string comparison is by code point, as in
Python. -/
def pageLt (a b : ProposedIndexPage) : Bool :=
  decide (a.priority < b.priority) ||
    (decide (a.priority = b.priority) && strLt a.route b.route)

/-- The priority originally passed to `propose_index_page`, recovered from
the stored (negated) field. -/
def proposedPriority (p : ProposedIndexPage) : Int := -p.priority

/-- `get_index_url()` (extension.py lines 74-86): the route of
`proposed_index_pages[0]` when the list is non-empty, else `None`.  (The
source returns `url_for(route)`; `url_for` is an external Quart helper that
resolves a route name to its URL, so the model returns the winning route
name itself.) -/
def get_index_url (proposed_index_pages : List ProposedIndexPage) : Option String :=
  match proposed_index_pages with
  | [] => none
  | p :: _ => some p.route

/-- The body of `propose_index_page(route, priority)` acting on the module
state: `heappush(proposed_index_pages, ProposedIndexPage(priority=-priority,
route=route))`. -/
def propose_index_page (l : List ProposedIndexPage) (route : String)
    (priority : Int) : List ProposedIndexPage :=
  heappush pageLt l { priority := -priority, route := route }

/-- The disposer closure returned by `propose_index_page`:

```
index = proposed_index_pages.index(page)
if index >= 0:
    proposed_index_pages[index] = proposed_index_pages[-1]
    proposed_index_pages.pop()
    heapify(proposed_index_pages)
```

`list.index` raises `ValueError` when no live element compares equal to
`page` (dataclass `==` is field-wise equality), which we model as `none`; the
state is unchanged in that case, since the exception escapes before any
mutation.  When found (`index >= 0` always holds then), the entry is
overwritten with the last element, the list shrinks by one, and the heap
invariant is re-established by a full `heapify`. -/
def disposerRun (page : ProposedIndexPage) (l : List ProposedIndexPage) :
    Option (List ProposedIndexPage) :=
  let index := l.findIdx (fun q => decide (q = page))
  if index < l.length then
    some (pyHeapify pageLt ((l.set index (l.getD (l.length - 1) default)).dropLast))
  else
    none

/-- An interleaving of calls against the module state: `propose route p`
is a `propose_index_page(route, p)` call, `revoke route p` is a call to the
disposer returned by such a propose call. -/
inductive HeapOp where
  | propose (route : String) (priority : Int)
  | revoke (route : String) (priority : Int)
deriving DecidableEq, Repr

/-- Applies one call to the module state.  A disposer whose page is no longer
live raises `ValueError` and leaves the state unchanged. -/
def applyOp (l : List ProposedIndexPage) : HeapOp → List ProposedIndexPage
  | HeapOp.propose route priority => propose_index_page l route priority
  | HeapOp.revoke route priority =>
    match disposerRun { priority := -priority, route := route } l with
    | some l2 => l2
    | none => l

/-- The module state after a sequence of calls, starting from the initial
`proposed_index_pages = []`. -/
def execOps (ops : List HeapOp) : List ProposedIndexPage :=
  ops.foldl applyOp []

/-- The binary-heap invariant of a list in array layout: no element is
`lt`-below its parent.  (`heapq` keeps `proposed_index_pages` in this shape.) -/
def IsHeap {α : Type} [Inhabited α] (lt : α → α → Bool) (heap : List α) : Prop :=
  ∀ j : Fin heap.length, j.val ≠ 0 →
    lt (heap.getD j.val default) (heap.getD ((j.val - 1) / 2) default) = false

instance {α : Type} [Inhabited α] (lt : α → α → Bool) (heap : List α) :
    Decidable (IsHeap lt heap) := by
  unfold IsHeap; infer_instance

/-! ### List indexing and multiset bookkeeping lemmas -/

section ListLemmas

variable {α : Type} [Inhabited α]

theorem getD_set_eq (l : List α) : ∀ (i : Nat) (a : α), i < l.length →
    (l.set i a).getD i default = a := by
  induction l with
  | nil => intro i a h; simp at h
  | cons x xs ih =>
    intro i a h
    cases i with
    | zero => rfl
    | succ n => simpa using ih n a (by simpa using h)

theorem getD_set_ne (l : List α) : ∀ (i j : Nat) (a : α), i ≠ j →
    (l.set i a).getD j default = l.getD j default := by
  induction l with
  | nil => intro i j a _; simp
  | cons x xs ih =>
    intro i j a hij
    cases i with
    | zero =>
      cases j with
      | zero => exact absurd rfl hij
      | succ m => rfl
    | succ n =>
      cases j with
      | zero => rfl
      | succ m => simpa using ih n m a (by omega)

theorem getD_append_left (l₁ l₂ : List α) : ∀ j, j < l₁.length →
    (l₁ ++ l₂).getD j default = l₁.getD j default := by
  induction l₁ with
  | nil => intro j h; simp at h
  | cons x xs ih =>
    intro j h
    cases j with
    | zero => rfl
    | succ n => simpa using ih n (by simpa using h)

theorem getD_append_len (l : List α) (x : α) :
    (l ++ [x]).getD l.length default = x := by
  induction l with
  | nil => rfl
  | cons y ys ih => simpa using ih

theorem getD_mem (l : List α) : ∀ i, i < l.length → l.getD i default ∈ l := by
  induction l with
  | nil => intro i h; simp at h
  | cons x xs ih =>
    intro i h
    cases i with
    | zero => exact List.mem_cons_self x xs
    | succ n => exact List.mem_cons_of_mem x (by simpa using ih n (by simpa using h))

theorem mem_getD (l : List α) (a : α) (h : a ∈ l) :
    ∃ i, i < l.length ∧ l.getD i default = a := by
  induction l with
  | nil => simp at h
  | cons x xs ih =>
    rcases List.mem_cons.mp h with h0 | h1
    · exact ⟨0, by simp, h0.symm⟩
    · obtain ⟨i, hi, hget⟩ := ih h1
      exact ⟨i + 1, by simpa using hi, by simpa using hget⟩

theorem multiset_set (l : List α) : ∀ (i : Nat) (a : α), i < l.length →
    ((l.set i a : List α) : Multiset α) + {l.getD i default} =
      (l : Multiset α) + {a} := by
  induction l with
  | nil => intro i a h; simp at h
  | cons x xs ih =>
    intro i a h
    cases i with
    | zero =>
      show ((a :: xs : List α) : Multiset α) + {x} = ((x :: xs : List α) : Multiset α) + {a}
      rw [← Multiset.cons_coe, ← Multiset.cons_coe, ← Multiset.singleton_add,
        ← Multiset.singleton_add]
      abel
    | succ n =>
      show ((x :: xs.set n a : List α) : Multiset α) + {xs.getD n default} = _
      rw [← Multiset.cons_coe, ← Multiset.cons_coe, Multiset.cons_add, Multiset.cons_add,
        ih n a (by simpa using h)]

theorem multiset_dropLast (l : List α) (h : l ≠ []) :
    ((l.dropLast : List α) : Multiset α) + {l.getD (l.length - 1) default} =
      (l : Multiset α) := by
  induction l with
  | nil => exact absurd rfl h
  | cons x xs ih =>
    cases xs with
    | nil => simp
    | cons y ys =>
      show ((x :: (y :: ys).dropLast : List α) : Multiset α) +
          {(x :: y :: ys).getD ((y :: ys).length) default} = _
      have hlen : (x :: y :: ys).getD ((y :: ys).length) default =
          (y :: ys).getD ((y :: ys).length - 1) default := by
        simp [List.getD_cons_succ]
      rw [hlen, ← Multiset.cons_coe, ← Multiset.cons_coe, Multiset.cons_add,
        ih (by simp)]

/-- The multiset effect of the disposer's swap-with-last followed by `pop`:
the element at position `index` is removed, everything else is kept. -/
theorem multiset_swap_dropLast (l : List α) (i : Nat) (h : i < l.length) :
    (((l.set i (l.getD (l.length - 1) default)).dropLast : List α) : Multiset α) +
      {l.getD i default} = (l : Multiset α) := by
  set w := l.getD (l.length - 1) default with hw
  set L := l.set i w with hL
  have hlen : L.length = l.length := by simp [hL]
  have hLne : L ≠ [] := by
    intro hnil
    rw [hnil] at hlen
    simp at hlen; omega
  have hlast : L.getD (L.length - 1) default = w := by
    by_cases hi : i = l.length - 1
    · rw [hlen, ← hi]; exact getD_set_eq l i w (by omega)
    · rw [hlen]; exact getD_set_ne l i (l.length - 1) w hi
  have h1 := multiset_dropLast L hLne
  rw [hlast] at h1
  have h2 := multiset_set l i w h
  have h3 : ((L.dropLast : List α) : Multiset α) + {l.getD i default} + {w} =
      (l : Multiset α) + {w} := by
    calc ((L.dropLast : List α) : Multiset α) + {l.getD i default} + {w}
        = ((L.dropLast : List α) : Multiset α) + {w} + {l.getD i default} := by abel
      _ = (L : Multiset α) + {l.getD i default} := by rw [h1]
      _ = (l : Multiset α) + {w} := h2
  exact add_right_cancel h3

/-! `List.findIdx` facts (CPython `list.index` returns the first index whose
element compares equal, and raises when there is none; `findIdx` returns the
length in that case). -/

theorem findIdx_le_length (p : α → Bool) (l : List α) : l.findIdx p ≤ l.length := by
  induction l with
  | nil => simp
  | cons x xs ih =>
    rw [List.findIdx_cons]
    cases hpx : p x with
    | true => simp
    | false => simpa using ih

theorem findIdx_getD (p : α → Bool) (l : List α) (h : l.findIdx p < l.length) :
    p (l.getD (l.findIdx p) default) = true := by
  induction l with
  | nil => simp at h
  | cons x xs ih =>
    rw [List.findIdx_cons] at h ⊢
    cases hpx : p x with
    | true => simpa using hpx
    | false =>
      simp only [hpx, cond_false] at h ⊢
      have h2 : List.findIdx p xs < xs.length := by
        simp only [List.length_cons] at h; omega
      simpa using ih h2

theorem findIdx_min (p : α → Bool) (l : List α) : ∀ j, j < l.findIdx p →
    p (l.getD j default) = false := by
  induction l with
  | nil => intro j h; simp at h
  | cons x xs ih =>
    intro j h
    rw [List.findIdx_cons] at h
    cases hpx : p x with
    | true => rw [hpx] at h; simp at h
    | false =>
      rw [hpx] at h
      cases j with
      | zero => simpa using hpx
      | succ n => simpa using ih n (by simpa using h)

theorem findIdx_lt_of_mem (p : α → Bool) (l : List α) (a : α) (ha : a ∈ l)
    (hpa : p a = true) : l.findIdx p < l.length := by
  induction l with
  | nil => simp at ha
  | cons x xs ih =>
    rw [List.findIdx_cons]
    rcases List.mem_cons.mp ha with h0 | h1
    · subst h0; rw [hpa]; simp
    · cases hpx : p x with
      | true => simp
      | false => simpa using ih h1

theorem findIdx_eq_length (p : α → Bool) (l : List α) (h : ∀ a ∈ l, p a = false) :
    l.findIdx p = l.length := by
  induction l with
  | nil => simp
  | cons x xs ih =>
    rw [List.findIdx_cons, h x (List.mem_cons_self x xs)]
    simpa using ih (fun a ha => h a (List.mem_cons_of_mem x ha))

end ListLemmas

/-! ### A Python-style strict comparison through an order embedding

All heap lemmas are generic in a comparison `lt : α → α → Bool`; the four
facts below are the only properties of `lt` they use.  Each instantiation is
obtained from a map into a linear order whose strict order agrees with `lt`. -/

section OrderPack

variable {α : Type} {β : Type} [LinearOrder β]
variable (lt : α → α → Bool) (f : α → β)

theorem ltB_irrefl (hf : ∀ a b, lt a b = true ↔ f a < f b) (a : α) :
    lt a a = false := by
  rw [← Bool.not_eq_true, hf]; exact lt_irrefl _

theorem ltB_asymm (hf : ∀ a b, lt a b = true ↔ f a < f b) (a b : α)
    (h : lt a b = true) : lt b a = false := by
  rw [← Bool.not_eq_true, hf]
  exact not_lt_of_gt ((hf a b).mp h)

/-- `a < b` and `b ≤ c` give `a < c` (stated on the Bool comparison). -/
theorem ltB_lt_le (hf : ∀ a b, lt a b = true ↔ f a < f b) (a b c : α)
    (hab : lt a b = true) (hcb : lt c b = false) : lt c a = false := by
  rw [← Bool.not_eq_true, hf]
  have h1 : f a < f b := (hf a b).mp hab
  have h2 : f b ≤ f c := le_of_not_lt (fun hlt => by rw [(hf c b).mpr hlt] at hcb; cases hcb)
  exact not_lt_of_gt (lt_of_lt_of_le h1 h2)

/-- Transitivity of the complement order `≤`. -/
theorem ltB_le_trans (hf : ∀ a b, lt a b = true ↔ f a < f b) (a b c : α)
    (hba : lt b a = false) (hcb : lt c b = false) : lt c a = false := by
  rw [← Bool.not_eq_true, hf]
  have h1 : f a ≤ f b := le_of_not_lt (fun hlt => by rw [(hf b a).mpr hlt] at hba; cases hba)
  have h2 : f b ≤ f c := le_of_not_lt (fun hlt => by rw [(hf c b).mpr hlt] at hcb; cases hcb)
  exact not_lt_of_ge (le_trans h1 h2)

end OrderPack

/-! ### `pageLt` agrees with the lexicographic order on `(priority, route)` -/

theorem listCharLt_iff (x y : List Char) :
    listCharLt x y = true ↔ List.Lex (· < ·) x y := by
  induction x generalizing y with
  | nil =>
    cases y with
    | nil => simp [listCharLt]
    | cons b bs => simp [listCharLt]; exact List.Lex.nil
  | cons a as ih =>
    cases y with
    | nil => simp [listCharLt]
    | cons b bs =>
      show (if a < b then true else if b < a then false else listCharLt as bs) = true ↔ _
      rcases lt_trichotomy a b with hab | hab | hab
      · simp [hab, not_lt_of_gt hab]
        exact List.Lex.rel hab
      · subst hab
        simp [lt_irrefl, ih]
        constructor
        · exact fun h => List.Lex.cons h
        · intro h
          cases h with
          | cons h => exact h
          | rel h => exact absurd h (lt_irrefl a)
      · simp [hab, not_lt_of_gt hab]
        intro h
        cases h with
        | cons h => exact absurd hab (lt_irrefl a)
        | rel h => exact absurd hab (not_lt_of_gt h)

/-- The value on which `pageLt` is an order embedding: the field tuple
`(priority, route)` in the lexicographic product order. -/
def pageKey (p : ProposedIndexPage) : Lex (Int × List Char) :=
  toLex (p.priority, p.route.data)

theorem pageLt_iff (a b : ProposedIndexPage) :
    pageLt a b = true ↔ pageKey a < pageKey b := by
  rw [pageKey, pageKey, Prod.Lex.lt_iff]
  show (decide (a.priority < b.priority) ||
      (decide (a.priority = b.priority) && strLt a.route b.route)) = true ↔ _
  rw [strLt]
  constructor
  · intro h
    rcases Bool.or_eq_true_iff.mp h with h1 | h2
    · exact Or.inl (of_decide_eq_true h1)
    · rcases Bool.and_eq_true_iff.mp h2 with ⟨h2a, h2b⟩
      exact Or.inr ⟨of_decide_eq_true h2a, (listCharLt_iff _ _).mp h2b⟩
  · intro h
    rcases h with h1 | ⟨h2a, h2b⟩
    · exact Bool.or_eq_true_iff.mpr (Or.inl (decide_eq_true h1))
    · exact Bool.or_eq_true_iff.mpr (Or.inr (Bool.and_eq_true_iff.mpr
        ⟨decide_eq_true h2a, (listCharLt_iff _ _).mpr h2b⟩))

theorem pageLt_irrefl (a : ProposedIndexPage) : pageLt a a = false :=
  ltB_irrefl pageLt pageKey pageLt_iff a

theorem pageLt_asymm (a b : ProposedIndexPage) (h : pageLt a b = true) :
    pageLt b a = false :=
  ltB_asymm pageLt pageKey pageLt_iff a b h

theorem pageLt_lt_le (a b c : ProposedIndexPage) (hab : pageLt a b = true)
    (hcb : pageLt c b = false) : pageLt c a = false :=
  ltB_lt_le pageLt pageKey pageLt_iff a b c hab hcb

theorem pageLt_le_trans (a b c : ProposedIndexPage) (hba : pageLt b a = false)
    (hcb : pageLt c b = false) : pageLt c a = false :=
  ltB_le_trans pageLt pageKey pageLt_iff a b c hba hcb

/-! ### The subtree relation on array-layout indices

`heapq` stores the heap in array layout: the parent of position `j > 0` is
`(j-1)/2`.  `inSub r j` says `j` lies in the subtree rooted at `r`. -/

/-- `j` is in the subtree rooted at `r` (follow parents from `j` up to `r`). -/
def inSub (r : Nat) (j : Nat) : Bool :=
  if j = r then true
  else if _h : j = 0 then false
  else inSub r ((j - 1) / 2)
termination_by j
decreasing_by omega

theorem inSub_refl (r : Nat) : inSub r r = true := by
  rw [inSub]; simp

theorem inSub_zero (j : Nat) : inSub 0 j = true := by
  induction j using Nat.strong_induction_on with
  | _ j ih =>
    rw [inSub]
    by_cases hj : j = 0
    · simp [hj]
    · simp only [hj, if_false, dif_neg hj]
      exact ih _ (by omega)

theorem inSub_ge (r j : Nat) (h : inSub r j = true) : r ≤ j := by
  induction j using Nat.strong_induction_on with
  | _ j ih =>
    rw [inSub] at h
    by_cases hjr : j = r
    · omega
    · rw [if_neg hjr] at h
      by_cases hj0 : j = 0
      · rw [dif_pos hj0] at h; cases h
      · rw [dif_neg hj0] at h
        have := ih ((j - 1) / 2) (by omega) h
        omega

theorem inSub_pos (r j : Nat) (h : inSub r j = true) (hne : j ≠ r) : 0 < j := by
  rcases Nat.eq_zero_or_pos j with h0 | h0
  · subst h0
    rw [inSub, if_neg hne, dif_pos rfl] at h
    cases h
  · exact h0

theorem inSub_parent (r j : Nat) (h : inSub r j = true) (hne : j ≠ r) :
    inSub r ((j - 1) / 2) = true := by
  have hj0 : j ≠ 0 := by
    have := inSub_pos r j h hne; omega
  rw [inSub, if_neg hne, dif_neg hj0] at h
  exact h

theorem inSub_child (r p c : Nat) (h : inSub r p = true) (hc : (c - 1) / 2 = p)
    (hc0 : 0 < c) : inSub r c = true := by
  rw [inSub]
  by_cases hcr : c = r
  · simp [hcr]
  · rw [if_neg hcr, dif_neg (by omega : ¬c = 0), hc]
    exact h

theorem inSub_trans (i r : Nat) (hir : inSub i r = true) :
    ∀ j, inSub r j = true → inSub i j = true := by
  intro j
  induction j using Nat.strong_induction_on with
  | _ j ih =>
    intro hrj
    by_cases hjr : j = r
    · subst hjr; exact hir
    · have hj0 : j ≠ 0 := by
        have := inSub_pos r j hrj hjr; omega
      have hp := ih ((j - 1) / 2) (by omega) (inSub_parent r j hrj hjr)
      by_cases hji : j = i
      · subst hji; exact inSub_refl j
      · rw [inSub, if_neg hji, dif_neg hj0]
        exact hp

theorem inSub_compare (i r : Nat) : ∀ j, inSub i j = true → inSub r j = true →
    inSub i r = true ∨ inSub r i = true := by
  intro j
  induction j using Nat.strong_induction_on with
  | _ j ih =>
    intro hij hrj
    by_cases hji : j = i
    · subst hji; exact Or.inr hrj
    · by_cases hjr : j = r
      · subst hjr; exact Or.inl hij
      · have hj0 : j ≠ 0 := by
          have := inSub_pos i j hij hji; omega
        exact ih ((j - 1) / 2) (by omega)
          (inSub_parent i j hij hji) (inSub_parent r j hrj hjr)

/-- Any strict member of the subtree of `r` is at least `r`'s first child. -/
theorem inSub_child_ge (r j : Nat) (h : inSub r j = true) (hne : j ≠ r) :
    2 * r + 1 ≤ j := by
  have hp := inSub_parent r j h hne
  have hj0 : 0 < j := inSub_pos r j h hne
  have hr := inSub_ge r ((j - 1) / 2) hp
  omega

/-- A strict member of the subtree of `r` lies in the subtree of one of `r`'s
children. -/
theorem inSub_step (r : Nat) : ∀ j, inSub r j = true → j ≠ r →
    ∃ c, (c - 1) / 2 = r ∧ 0 < c ∧ inSub c j = true := by
  intro j
  induction j using Nat.strong_induction_on with
  | _ j ih =>
    intro hj hne
    have hj0 : 0 < j := inSub_pos r j hj hne
    have hp : inSub r ((j - 1) / 2) = true := inSub_parent r j hj hne
    by_cases hpr : (j - 1) / 2 = r
    · exact ⟨j, hpr, hj0, inSub_refl j⟩
    · obtain ⟨c, hc1, hc2, hc3⟩ := ih ((j - 1) / 2) (by omega) hp hpr
      exact ⟨c, hc1, hc2, inSub_child c ((j - 1) / 2) j hc3 rfl hj0⟩

/-! ### Correctness of the `heapq` primitives -/

section HeapLemmas

variable {α : Type} [Inhabited α] (lt : α → α → Bool)

/-- The heap property restricted to the subtree rooted at `r`: no index in
the subtree is `lt`-below its parent. -/
def SubHeap (r : Nat) (heap : List α) : Prop :=
  ∀ j, j < heap.length → inSub r j = true → j ≠ r →
    lt (heap.getD j default) (heap.getD ((j - 1) / 2) default) = false

theorem isHeap_iff (heap : List α) : IsHeap lt heap ↔
    ∀ j, j < heap.length → j ≠ 0 →
      lt (heap.getD j default) (heap.getD ((j - 1) / 2) default) = false :=
  ⟨fun h j hj hj0 => h ⟨j, hj⟩ hj0, fun h j hj0 => h j.val j.isLt hj0⟩

theorem isHeap_of_subHeap_zero (heap : List α) (h : SubHeap lt 0 heap) :
    IsHeap lt heap :=
  (isHeap_iff lt heap).mpr fun j hj hj0 => h j hj (inSub_zero j) hj0

theorem subHeap_zero_of_isHeap (heap : List α) (h : IsHeap lt heap) :
    SubHeap lt 0 heap :=
  fun j hj _ hj0 => (isHeap_iff lt heap).mp h j hj hj0

/-- Unfolding equation for `siftdownLoop` at zero fuel. -/
theorem siftdownLoop_zero (startpos pos : Nat) (heap : List α) (item : α) :
    siftdownLoop lt startpos 0 pos heap item = heap.set pos item := rfl

/-- Unfolding equation for `siftdownLoop` at positive fuel. -/
theorem siftdownLoop_succ (startpos fuel pos : Nat) (heap : List α) (item : α) :
    siftdownLoop lt startpos (fuel + 1) pos heap item =
      if startpos < pos then
        if lt item (heap.getD ((pos - 1) / 2) default) then
          siftdownLoop lt startpos fuel ((pos - 1) / 2)
            (heap.set pos (heap.getD ((pos - 1) / 2) default)) item
        else heap.set pos item
      else heap.set pos item := rfl

/-- The state reached when `_siftdown`'s loop stops (either `pos` has come
down to `startpos`, or `newitem` is not below its parent) and `newitem` is
stored at `pos`. -/
theorem siftdown_stop_spec (startpos pos : Nat) (heap : List α) (item : α)
    (hpos : pos < heap.length)
    (hins : inSub startpos pos = true)
    (hA : ∀ j, j < heap.length → inSub startpos j = true → j ≠ startpos → j ≠ pos →
      lt (heap.getD j default) (heap.getD ((j - 1) / 2) default) = false)
    (hB : ∀ c, c < heap.length → (c - 1) / 2 = pos → 0 < c →
      lt (heap.getD c default) item = false)
    (hstop : pos = startpos ∨ lt item (heap.getD ((pos - 1) / 2) default) = false) :
    (heap.set pos item).length = heap.length ∧
    SubHeap lt startpos (heap.set pos item) ∧
    (∀ j, inSub startpos j = false →
      (heap.set pos item).getD j default = heap.getD j default) ∧
    ((heap.set pos item : List α) : Multiset α) + {heap.getD pos default} =
      (heap : Multiset α) + {item} := by
  refine ⟨List.length_set heap pos item, ?_, ?_, multiset_set heap pos item hpos⟩
  · intro j hj hjin hjne
    rw [List.length_set] at hj
    by_cases hjp : j = pos
    · subst hjp
      rcases hstop with h1 | h2
      · exact absurd h1 hjne
      · have hjpos : 0 < j := inSub_pos startpos j hjin hjne
        rw [getD_set_eq heap j item hpos,
          getD_set_ne heap j ((j - 1) / 2) item (by omega)]
        exact h2
    · rw [getD_set_ne heap pos j item (Ne.symm hjp)]
      by_cases hpj : (j - 1) / 2 = pos
      · rw [hpj, getD_set_eq heap pos item hpos]
        exact hB j hj hpj (inSub_pos startpos j hjin hjne)
      · rw [getD_set_ne heap pos ((j - 1) / 2) item (fun h => hpj h.symm)]
        exact hA j hj hjin hjne hjp
  · intro j hjout
    by_cases hjp : j = pos
    · subst hjp; rw [hins] at hjout; cases hjout
    · exact getD_set_ne heap pos j item (Ne.symm hjp)

/-- Main invariant lemma for CPython's `_siftdown` loop.  The hypotheses say:
the heap property holds everywhere in the subtree of `startpos` except
possibly on the edge from `pos` to its parent (`hA`), the children of the
hole `pos` are not below `newitem` (`hB`) nor below `pos`'s parent (`hB2`).
The result satisfies the subtree heap property, positions outside the
subtree are untouched, and the multiset of elements is that of the input
with position `pos` overwritten by `newitem`. -/
theorem siftdownLoop_spec
    (hirr : ∀ a : α, lt a a = false)
    (hasym : ∀ a b : α, lt a b = true → lt b a = false)
    (hltle : ∀ a b c : α, lt a b = true → lt c b = false → lt c a = false)
    (hletrans : ∀ a b c : α, lt b a = false → lt c b = false → lt c a = false)
    (startpos : Nat) :
    ∀ (fuel pos : Nat) (heap : List α) (item : α),
    pos ≤ fuel →
    pos < heap.length →
    inSub startpos pos = true →
    (∀ j, j < heap.length → inSub startpos j = true → j ≠ startpos → j ≠ pos →
      lt (heap.getD j default) (heap.getD ((j - 1) / 2) default) = false) →
    (∀ c, c < heap.length → (c - 1) / 2 = pos → 0 < c →
      lt (heap.getD c default) item = false) →
    (startpos < pos →
      ∀ c, c < heap.length → (c - 1) / 2 = pos → 0 < c →
        lt (heap.getD c default) (heap.getD ((pos - 1) / 2) default) = false) →
    (siftdownLoop lt startpos fuel pos heap item).length = heap.length ∧
    SubHeap lt startpos (siftdownLoop lt startpos fuel pos heap item) ∧
    (∀ j, inSub startpos j = false →
      (siftdownLoop lt startpos fuel pos heap item).getD j default =
        heap.getD j default) ∧
    ((siftdownLoop lt startpos fuel pos heap item : List α) : Multiset α) +
      {heap.getD pos default} = (heap : Multiset α) + {item} := by
  intro fuel
  induction fuel with
  | zero =>
    intro pos heap item hfuel hpos hins hA hB _hB2
    have hp0 : pos = 0 := by omega
    subst hp0
    have hs0 : (0 : Nat) = startpos := by
      have := inSub_ge startpos 0 hins; omega
    rw [siftdownLoop_zero]
    exact siftdown_stop_spec lt startpos 0 heap item hpos hins hA hB (Or.inl hs0)
  | succ fuel ih =>
    intro pos heap item hfuel hpos hins hA hB hB2
    rw [siftdownLoop_succ]
    by_cases hsp : startpos < pos
    · rw [if_pos hsp]
      by_cases hcmp : lt item (heap.getD ((pos - 1) / 2) default) = true
      · rw [if_pos hcmp]
        -- the hole moves up to the parent
        set pp := (pos - 1) / 2 with hpp
        set parent := heap.getD pp default with hparent
        set H := heap.set pos parent with hH
        have hppos : 0 < pos := by omega
        have hppls : pp < pos := by omega
        have hpplen : pp < heap.length := by omega
        have hnesp : pos ≠ startpos := by omega
        have hinspp : inSub startpos pp = true := inSub_parent startpos pos hins hnesp
        have hspp : startpos ≤ pp := inSub_ge startpos pp hinspp
        -- value lookups in H
        have hHpos : H.getD pos default = parent := getD_set_eq heap pos parent hpos
        have hHne : ∀ j, j ≠ pos → H.getD j default = heap.getD j default :=
          fun j hj => getD_set_ne heap pos j parent (Ne.symm hj)
        have hHlen : H.length = heap.length := List.length_set heap pos parent
        -- children of pos are exactly the indices with parent pos
        -- precondition (A) for the recursive call
        have hA2 : ∀ j, j < H.length → inSub startpos j = true → j ≠ startpos →
            j ≠ pp → lt (H.getD j default) (H.getD ((j - 1) / 2) default) = false := by
          intro j hj hjin hjs hjpp
          rw [hHlen] at hj
          by_cases hjp : j = pos
          · subst hjp
            rw [hHpos, ← hpp, hHne pp (by omega)]
            exact hirr parent
          · rw [hHne j hjp]
            by_cases hcj : (j - 1) / 2 = pos
            · rw [hcj, hHpos]
              have hj0 : 0 < j := inSub_pos startpos j hjin hjs
              exact hB2 hsp j hj hcj hj0
            · rw [hHne ((j - 1) / 2) (fun h => hcj h)]
              exact hA j hj hjin hjs hjp
        -- precondition (B): children of pp are not below item
        have hB2' : ∀ c, c < H.length → (c - 1) / 2 = pp → 0 < c →
            lt (H.getD c default) item = false := by
          intro c hc hcp hc0
          rw [hHlen] at hc
          by_cases hcpos : c = pos
          · subst hcpos
            rw [hHpos]
            exact hasym item parent hcmp
          · rw [hHne c hcpos]
            have hcin : inSub startpos c :=
              inSub_child startpos pp c hinspp hcp hc0
            have hcs : c ≠ startpos := by
              have := inSub_child_ge startpos c hcin ?_
              · omega
              · intro h; subst h; omega
            have hedge : lt (heap.getD c default) parent = false := by
              have := hA c hc hcin hcs hcpos
              rwa [hcp] at this
            exact hltle item parent (heap.getD c default) hcmp hedge
        -- precondition (B2) for the recursive call
        have hB2'' : startpos < pp → ∀ c, c < H.length → (c - 1) / 2 = pp → 0 < c →
            lt (H.getD c default) (H.getD ((pp - 1) / 2) default) = false := by
          intro hspp' c hc hcp hc0
          rw [hHlen] at hc
          have hgp : (pp - 1) / 2 ≠ pos := by omega
          rw [hHne ((pp - 1) / 2) hgp]
          have hppedge : lt (heap.getD pp default) (heap.getD ((pp - 1) / 2) default)
              = false :=
            hA pp hpplen hinspp (by omega) (by omega)
          by_cases hcpos : c = pos
          · subst hcpos
            rw [hHpos]
            exact hppedge
          · rw [hHne c hcpos]
            have hcin : inSub startpos c :=
              inSub_child startpos pp c hinspp hcp hc0
            have hcs : c ≠ startpos := by omega
            have hedge : lt (heap.getD c default) parent = false := by
              have := hA c hc hcin hcs hcpos
              rwa [hcp] at this
            exact hletrans (heap.getD ((pp - 1) / 2) default) parent
              (heap.getD c default) hppedge hedge
        obtain ⟨ihlen, ihsub, ihout, ihms⟩ :=
          ih pp H item (by omega) (by omega) hinspp hA2 hB2' hB2''
        refine ⟨by rw [ihlen, hHlen], ihsub, ?_, ?_⟩
        · intro j hjout
          rw [ihout j hjout]
          have hjp : j ≠ pos := by
            intro h; subst h; rw [hins] at hjout; cases hjout
          exact hHne j hjp
        · have e1 : ((siftdownLoop lt startpos fuel pp H item : List α) : Multiset α) +
              {parent} = (H : Multiset α) + {item} := by
            have := ihms
            rwa [hHne pp (by omega)] at this
          have e2 : (H : Multiset α) + {heap.getD pos default} =
              (heap : Multiset α) + {parent} := multiset_set heap pos parent hpos
          have e3 : ((siftdownLoop lt startpos fuel pp H item : List α) : Multiset α) +
              {heap.getD pos default} + {parent} =
              (heap : Multiset α) + {item} + {parent} := by
            calc ((siftdownLoop lt startpos fuel pp H item : List α) : Multiset α) +
                {heap.getD pos default} + {parent}
                = ((siftdownLoop lt startpos fuel pp H item : List α) : Multiset α) +
                  {parent} + {heap.getD pos default} := by abel
              _ = ((H : Multiset α) + {item}) + {heap.getD pos default} := by rw [e1]
              _ = ((H : Multiset α) + {heap.getD pos default}) + {item} := by abel
              _ = ((heap : Multiset α) + {parent}) + {item} := by rw [e2]
              _ = (heap : Multiset α) + {item} + {parent} := by abel
          exact add_right_cancel e3
      · rw [if_neg hcmp]
        exact siftdown_stop_spec lt startpos pos heap item hpos hins hA hB
          (Or.inr (Bool.eq_false_iff.mpr hcmp))
    · rw [if_neg hsp]
      have hps : pos = startpos := by
        have := inSub_ge startpos pos hins; omega
      exact siftdown_stop_spec lt startpos pos heap item hpos hins hA hB (Or.inl hps)

/-- Correctness of `heappush` on a well-formed heap: the result is a heap,
one longer, holding the old elements plus the new item. -/
theorem heappush_spec
    (hirr : ∀ a : α, lt a a = false)
    (hasym : ∀ a b : α, lt a b = true → lt b a = false)
    (hltle : ∀ a b c : α, lt a b = true → lt c b = false → lt c a = false)
    (hletrans : ∀ a b c : α, lt b a = false → lt c b = false → lt c a = false)
    (heap : List α) (item : α) (hheap : IsHeap lt heap) :
    IsHeap lt (heappush lt heap item) ∧
    (heappush lt heap item).length = heap.length + 1 ∧
    ((heappush lt heap item : List α) : Multiset α) = (heap : Multiset α) + {item} := by
  have hpos : heap.length < (heap ++ [item]).length := by simp
  have hA : ∀ j, j < (heap ++ [item]).length → inSub 0 j = true → j ≠ 0 →
      j ≠ heap.length →
      lt ((heap ++ [item]).getD j default)
        ((heap ++ [item]).getD ((j - 1) / 2) default) = false := by
    intro j hj _ hj0 hjn
    have hjlt : j < heap.length := by simp at hj; omega
    rw [getD_append_left heap [item] j hjlt,
      getD_append_left heap [item] ((j - 1) / 2) (by omega)]
    exact (isHeap_iff lt heap).mp hheap j hjlt hj0
  have hB : ∀ c, c < (heap ++ [item]).length → (c - 1) / 2 = heap.length → 0 < c →
      lt ((heap ++ [item]).getD c default) item = false := by
    intro c hc hcp hc0
    simp at hc
    omega
  have hB2 : (0 : Nat) < heap.length → ∀ c, c < (heap ++ [item]).length →
      (c - 1) / 2 = heap.length → 0 < c →
      lt ((heap ++ [item]).getD c default)
        ((heap ++ [item]).getD ((heap.length - 1) / 2) default) = false := by
    intro _ c hc hcp hc0
    simp at hc
    omega
  obtain ⟨h1, h2, _h3, h4⟩ := siftdownLoop_spec lt hirr hasym hltle hletrans 0
    heap.length heap.length (heap ++ [item]) item (le_refl _) hpos (inSub_zero _)
    hA hB hB2
  have hppu : heappush lt heap item =
      siftdownLoop lt 0 heap.length heap.length (heap ++ [item]) item := rfl
  rw [getD_append_len heap item] at h4
  have h4' : ((siftdownLoop lt 0 heap.length heap.length (heap ++ [item]) item :
      List α) : Multiset α) = ((heap ++ [item] : List α) : Multiset α) :=
    add_right_cancel h4
  refine ⟨?_, ?_, ?_⟩
  · rw [hppu]; exact isHeap_of_subHeap_zero lt _ h2
  · rw [hppu, h1]; simp
  · rw [hppu, h4']; rfl

/-- The child `_siftup`'s loop body selects to move up: the right child when
it exists and the left child is not strictly below it, else the left child. -/
def chooseChild (heap : List α) (pos : Nat) : Nat :=
  if 2 * pos + 1 + 1 < heap.length &&
      !(lt (heap.getD (2 * pos + 1) default)
        (heap.getD (2 * pos + 1 + 1) default)) then
    2 * pos + 1 + 1
  else 2 * pos + 1

/-- The selected child is in range, is a child of `pos`, and no other child
of `pos` is strictly below it. -/
theorem chooseChild_spec
    (hasym : ∀ a b : α, lt a b = true → lt b a = false)
    (heap : List α) (pos : Nat) (hchild : 2 * pos + 1 < heap.length) :
    chooseChild lt heap pos < heap.length ∧
    (chooseChild lt heap pos - 1) / 2 = pos ∧
    pos < chooseChild lt heap pos ∧
    (∀ o, o < heap.length → (o - 1) / 2 = pos → 0 < o →
      o ≠ chooseChild lt heap pos →
      lt (heap.getD o default) (heap.getD (chooseChild lt heap pos) default)
        = false) := by
  rw [chooseChild]
  split_ifs with hcond
  · rcases Bool.and_eq_true_iff.mp hcond with ⟨hlt2, hnlt⟩
    have hcl : 2 * pos + 1 + 1 < heap.length := of_decide_eq_true hlt2
    refine ⟨hcl, by omega, by omega, ?_⟩
    intro o ho hop ho0 hone
    have ho1 : o = 2 * pos + 1 := by omega
    subst ho1
    simpa using hnlt
  · refine ⟨hchild, by omega, by omega, ?_⟩
    intro o ho hop ho0 hone
    have ho1 : o = 2 * pos + 1 + 1 := by omega
    subst ho1
    cases hlt : lt (heap.getD (2 * pos + 1) default)
        (heap.getD (2 * pos + 1 + 1) default) with
    | true => exact hasym _ _ hlt
    | false =>
      exfalso
      apply hcond
      rw [hlt]
      simp [ho]

/-- Unfolding equation for `siftupLoop` at positive fuel, phrased with
`chooseChild`. -/
theorem siftupLoop_succ (startpos fuel pos : Nat) (heap : List α) (item : α) :
    siftupLoop lt startpos (fuel + 1) pos heap item =
      if 2 * pos + 1 < heap.length then
        siftupLoop lt startpos fuel (chooseChild lt heap pos)
          (heap.set pos (heap.getD (chooseChild lt heap pos) default)) item
      else
        siftdown lt startpos pos (heap.set pos item) item := rfl

/-- One walk-down step of `_siftup` preserves the full subtree heap property
of the intermediate state: overwriting the hole `pos` with its selected child
`cpos` (the new hole). -/
theorem siftup_step_newJ
    (hirr : ∀ a : α, lt a a = false)
    (hletrans : ∀ a b c : α, lt b a = false → lt c b = false → lt c a = false)
    (startpos pos cpos : Nat) (heap : List α)
    (hpos : pos < heap.length) (hins : inSub startpos pos = true)
    (hcl : cpos < heap.length) (hcp : (cpos - 1) / 2 = pos) (hclt : pos < cpos)
    (hmin : ∀ o, o < heap.length → (o - 1) / 2 = pos → 0 < o → o ≠ cpos →
      lt (heap.getD o default) (heap.getD cpos default) = false)
    (hJ : ∀ j, j < heap.length → inSub startpos j = true → j ≠ startpos →
      lt (heap.getD j default) (heap.getD ((j - 1) / 2) default) = false) :
    ∀ j, j < (heap.set pos (heap.getD cpos default)).length →
      inSub startpos j = true → j ≠ startpos →
      lt ((heap.set pos (heap.getD cpos default)).getD j default)
        ((heap.set pos (heap.getD cpos default)).getD ((j - 1) / 2) default)
        = false := by
  intro j hj hjin hjs
  rw [List.length_set] at hj
  have hinscpos : inSub startpos cpos = true :=
    inSub_child startpos pos cpos hins hcp (by omega)
  by_cases hjc : j = cpos
  · rw [hjc]
    rw [getD_set_ne heap pos cpos (heap.getD cpos default) (by omega), hcp,
      getD_set_eq heap pos (heap.getD cpos default) hpos]
    exact hirr _
  · by_cases hjchild : (j - 1) / 2 = pos
    · have hj0 : 0 < j := inSub_pos startpos j hjin hjs
      have hjgt : pos < j := by omega
      rw [getD_set_ne heap pos j (heap.getD cpos default) (by omega), hjchild,
        getD_set_eq heap pos (heap.getD cpos default) hpos]
      exact hmin j hj hjchild hj0 hjc
    · by_cases hjp : j = pos
      · subst hjp
        have hj0 : 0 < j := inSub_pos startpos j hjin hjs
        rw [getD_set_eq heap j (heap.getD cpos default) hpos,
          getD_set_ne heap j ((j - 1) / 2) (heap.getD cpos default) (by omega)]
        have h1 : lt (heap.getD j default) (heap.getD ((j - 1) / 2) default)
            = false := hJ j hj hjin hjs
        have h2 : lt (heap.getD cpos default) (heap.getD j default) = false := by
          have := hJ cpos hcl hinscpos (by
            have := inSub_ge startpos j hjin; omega)
          rwa [hcp] at this
        exact hletrans _ _ _ h1 h2
      · rw [getD_set_ne heap pos j (heap.getD cpos default) (Ne.symm hjp),
          getD_set_ne heap pos ((j - 1) / 2) (heap.getD cpos default)
            (fun h => hjchild h.symm)]
        exact hJ j hj hjin hjs

/-- Main invariant lemma for `_siftup`'s walk-down loop followed by the final
`_siftdown`.  The hypothesis is the full subtree heap property of the current
intermediate state (it holds after the first walk-down step; the entry state
is handled separately in `siftup_spec`).  The result is a subtree heap,
positions outside the subtree are untouched, and the multiset is that of the
input with the hole `pos` overwritten by `newitem`. -/
theorem siftupLoop_spec
    (hirr : ∀ a : α, lt a a = false)
    (hasym : ∀ a b : α, lt a b = true → lt b a = false)
    (hltle : ∀ a b c : α, lt a b = true → lt c b = false → lt c a = false)
    (hletrans : ∀ a b c : α, lt b a = false → lt c b = false → lt c a = false)
    (startpos : Nat) :
    ∀ (fuel pos : Nat) (heap : List α) (item : α),
    heap.length ≤ fuel + pos →
    pos < heap.length →
    inSub startpos pos = true →
    (∀ j, j < heap.length → inSub startpos j = true → j ≠ startpos →
      lt (heap.getD j default) (heap.getD ((j - 1) / 2) default) = false) →
    (siftupLoop lt startpos fuel pos heap item).length = heap.length ∧
    SubHeap lt startpos (siftupLoop lt startpos fuel pos heap item) ∧
    (∀ j, inSub startpos j = false →
      (siftupLoop lt startpos fuel pos heap item).getD j default =
        heap.getD j default) ∧
    ((siftupLoop lt startpos fuel pos heap item : List α) : Multiset α) +
      {heap.getD pos default} = (heap : Multiset α) + {item} := by
  intro fuel
  induction fuel with
  | zero =>
    intro pos heap item hfuel hpos _ _
    omega
  | succ fuel ih =>
    intro pos heap item hfuel hpos hins hJ
    rw [siftupLoop_succ]
    by_cases hchild : 2 * pos + 1 < heap.length
    · rw [if_pos hchild]
      obtain ⟨hcl, hcp, hclt, hmin⟩ := chooseChild_spec lt hasym heap pos hchild
      set cpos := chooseChild lt heap pos with hcposdef
      have hnewJ := siftup_step_newJ lt hirr hletrans startpos pos cpos heap
        hpos hins hcl hcp hclt hmin hJ
      obtain ⟨ihlen, ihsub, ihout, ihms⟩ := ih cpos
        (heap.set pos (heap.getD cpos default)) item
        (by rw [List.length_set]; omega)
        (by rw [List.length_set]; omega)
        (inSub_child startpos pos cpos hins hcp (by omega))
        hnewJ
      refine ⟨by rw [ihlen, List.length_set], ihsub, ?_, ?_⟩
      · intro j hjout
        rw [ihout j hjout, getD_set_ne heap pos j _ (by
          intro h; subst h; rw [hins] at hjout; cases hjout)]
      · rw [getD_set_ne heap pos cpos _ (by omega)] at ihms
        have e2 := multiset_set heap pos (heap.getD cpos default) hpos
        set R := (siftupLoop lt startpos fuel cpos
          (heap.set pos (heap.getD cpos default)) item : List α)
        set H := heap.set pos (heap.getD cpos default) with hHdef
        have e3 : (R : Multiset α) + {heap.getD pos default} +
            {heap.getD cpos default} =
            (heap : Multiset α) + {item} + {heap.getD cpos default} := by
          calc (R : Multiset α) + {heap.getD pos default} + {heap.getD cpos default}
              = (R : Multiset α) + {heap.getD cpos default} +
                {heap.getD pos default} := by abel
            _ = ((H : List α) : Multiset α) + {item} + {heap.getD pos default} := by
                rw [ihms]
            _ = ((H : List α) : Multiset α) + {heap.getD pos default} + {item} := by
                abel
            _ = (heap : Multiset α) + {heap.getD cpos default} + {item} := by
                rw [e2]
            _ = (heap : Multiset α) + {item} + {heap.getD cpos default} := by abel
        exact add_right_cancel e3
    · rw [if_neg hchild]
      -- leaf reached: store `newitem` and sift it toward the root
      have hA : ∀ j, j < (heap.set pos item).length → inSub startpos j = true →
          j ≠ startpos → j ≠ pos →
          lt ((heap.set pos item).getD j default)
            ((heap.set pos item).getD ((j - 1) / 2) default) = false := by
        intro j hj hjin hjs hjp
        rw [List.length_set] at hj
        have hjchild : (j - 1) / 2 ≠ pos := by
          intro h
          omega
        rw [getD_set_ne heap pos j item (Ne.symm hjp),
          getD_set_ne heap pos ((j - 1) / 2) item (fun h => hjchild h.symm)]
        exact hJ j hj hjin hjs
      have hB : ∀ c, c < (heap.set pos item).length → (c - 1) / 2 = pos → 0 < c →
          lt ((heap.set pos item).getD c default) item = false := by
        intro c hc hcp hc0
        rw [List.length_set] at hc
        omega
      have hB2 : startpos < pos → ∀ c, c < (heap.set pos item).length →
          (c - 1) / 2 = pos → 0 < c →
          lt ((heap.set pos item).getD c default)
            ((heap.set pos item).getD ((pos - 1) / 2) default) = false := by
        intro _ c hc hcp hc0
        rw [List.length_set] at hc
        omega
      obtain ⟨h1, h2, h3, h4⟩ := siftdownLoop_spec lt hirr hasym hltle hletrans
        startpos pos pos (heap.set pos item) item (le_refl _)
        (by rw [List.length_set]; exact hpos) hins hA hB hB2
      have hsd : siftdown lt startpos pos (heap.set pos item) item =
          siftdownLoop lt startpos pos pos (heap.set pos item) item := rfl
      rw [getD_set_eq heap pos item hpos] at h4
      have h4' := add_right_cancel h4
      refine ⟨?_, ?_, ?_, ?_⟩
      · rw [hsd, h1, List.length_set]
      · rw [hsd]; exact h2
      · intro j hjout
        rw [hsd, h3 j hjout, getD_set_ne heap pos j item (by
          intro h; subst h; rw [hins] at hjout; cases hjout)]
      · rw [hsd, h4', multiset_set heap pos item hpos]

/-- Correctness of `_siftup` at `pos` when every subtree strictly below `pos`
already satisfies the heap property (the situation in `heapify`'s loop). -/
theorem siftup_spec
    (hirr : ∀ a : α, lt a a = false)
    (hasym : ∀ a b : α, lt a b = true → lt b a = false)
    (hltle : ∀ a b c : α, lt a b = true → lt c b = false → lt c a = false)
    (hletrans : ∀ a b c : α, lt b a = false → lt c b = false → lt c a = false)
    (pos : Nat) (heap : List α) (hpos : pos < heap.length)
    (hch : ∀ r, pos < r → SubHeap lt r heap) :
    (siftup lt pos heap).length = heap.length ∧
    SubHeap lt pos (siftup lt pos heap) ∧
    (∀ j, inSub pos j = false →
      (siftup lt pos heap).getD j default = heap.getD j default) ∧
    ((siftup lt pos heap : List α) : Multiset α) = (heap : Multiset α) := by
  obtain ⟨n, hn⟩ : ∃ n, heap.length = n + 1 := ⟨heap.length - 1, by omega⟩
  have hunf : siftup lt pos heap =
      siftupLoop lt pos (n + 1) pos heap (heap.getD pos default) := by
    rw [siftup, hn]
  by_cases hchild : 2 * pos + 1 < heap.length
  · -- the hole has at least one child: the first walk-down step is done by
    -- hand, after which the intermediate state satisfies the full subtree
    -- property needed by `siftupLoop_spec`
    obtain ⟨hcl, hcp, hclt, hmin⟩ := chooseChild_spec lt hasym heap pos hchild
    set cpos := chooseChild lt heap pos with hcposdef
    have hnewJ : ∀ j, j < (heap.set pos (heap.getD cpos default)).length →
        inSub pos j = true → j ≠ pos →
        lt ((heap.set pos (heap.getD cpos default)).getD j default)
          ((heap.set pos (heap.getD cpos default)).getD ((j - 1) / 2) default)
          = false := by
      intro j hj hjin hjp
      rw [List.length_set] at hj
      by_cases hjc : j = cpos
      · rw [hjc]
        rw [getD_set_ne heap pos cpos _ (by omega), hcp,
          getD_set_eq heap pos _ hpos]
        exact hirr _
      · by_cases hjchild : (j - 1) / 2 = pos
        · have hj0 : 0 < j := inSub_pos pos j hjin hjp
          rw [getD_set_ne heap pos j _ (by
              have := inSub_child_ge pos j hjin hjp; omega), hjchild,
            getD_set_eq heap pos _ hpos]
          exact hmin j hj hjchild hj0 hjc
        · -- j lies strictly inside the subtree of one of pos's children
          obtain ⟨c, hc1, hc2, hc3⟩ := inSub_step pos j hjin hjp
          have hjnec : j ≠ c := by
            intro h; subst h; exact hjchild hc1
          have hjgt : pos < j := by
            have := inSub_child_ge pos j hjin hjp; omega
          have hpj : (j - 1) / 2 ≠ pos := hjchild
          rw [getD_set_ne heap pos j _ (by omega),
            getD_set_ne heap pos ((j - 1) / 2) _ (fun h => hpj h.symm)]
          exact hch c (by omega) j hj hc3 hjnec
    rw [hunf, siftupLoop_succ, if_pos hchild, ← hcposdef]
    obtain ⟨ihlen, ihsub, ihout, ihms⟩ := siftupLoop_spec lt hirr hasym hltle
      hletrans pos n cpos (heap.set pos (heap.getD cpos default))
      (heap.getD pos default)
      (by rw [List.length_set]; omega)
      (by rw [List.length_set]; omega)
      (inSub_child pos pos cpos (inSub_refl pos) hcp (by omega))
      hnewJ
    refine ⟨by rw [ihlen, List.length_set], ihsub, ?_, ?_⟩
    · intro j hjout
      have hjp : j ≠ pos := by
        intro h; subst h; rw [inSub_refl] at hjout; cases hjout
      rw [ihout j hjout, getD_set_ne heap pos j _ (Ne.symm hjp)]
    · rw [getD_set_ne heap pos cpos _ (by omega)] at ihms
      have e2 := multiset_set heap pos (heap.getD cpos default) hpos
      set R := (siftupLoop lt pos n cpos
        (heap.set pos (heap.getD cpos default)) (heap.getD pos default) : List α)
      set H := heap.set pos (heap.getD cpos default) with hHdef
      have e3 : (R : Multiset α) + {heap.getD cpos default} +
          {heap.getD pos default} =
          (heap : Multiset α) + {heap.getD cpos default} +
          {heap.getD pos default} := by
        calc (R : Multiset α) + {heap.getD cpos default} + {heap.getD pos default}
            = ((H : List α) : Multiset α) + {heap.getD pos default} +
              {heap.getD pos default} := by rw [ihms]
          _ = ((H : List α) : Multiset α) + {heap.getD pos default} +
              {heap.getD pos default} := rfl
          _ = (heap : Multiset α) + {heap.getD cpos default} +
              {heap.getD pos default} := by rw [e2]
      have := add_right_cancel e3
      exact add_right_cancel this
  · -- `pos` is a leaf: its subtree is trivial and `siftupLoop_spec` applies
    -- directly (its heap-property hypothesis is vacuous)
    have hJ : ∀ j, j < heap.length → inSub pos j = true → j ≠ pos →
        lt (heap.getD j default) (heap.getD ((j - 1) / 2) default) = false := by
      intro j hj hjin hjp
      have := inSub_child_ge pos j hjin hjp
      omega
    obtain ⟨h1, h2, h3, h4⟩ := siftupLoop_spec lt hirr hasym hltle hletrans pos
      (n + 1) pos heap (heap.getD pos default) (by omega) hpos (inSub_refl pos) hJ
    rw [← hunf] at h1 h2 h3 h4
    have h4' := add_right_cancel h4
    exact ⟨h1, h2, h3, h4'⟩

/-- Unfolding equation for `heapifyLoop`. -/
theorem heapifyLoop_succ (i : Nat) (heap : List α) :
    heapifyLoop lt (i + 1) heap = heapifyLoop lt i (siftup lt i heap) := rfl

/-- `heapify`'s loop: processing positions `k-1, k-2, ..., 0` turns a list
whose subtrees rooted at `≥ k` are heaps into one where every subtree is a
heap, permuting nothing. -/
theorem heapifyLoop_spec
    (hirr : ∀ a : α, lt a a = false)
    (hasym : ∀ a b : α, lt a b = true → lt b a = false)
    (hltle : ∀ a b c : α, lt a b = true → lt c b = false → lt c a = false)
    (hletrans : ∀ a b c : α, lt b a = false → lt c b = false → lt c a = false) :
    ∀ (k : Nat) (heap : List α),
    k ≤ heap.length →
    (∀ r, k ≤ r → SubHeap lt r heap) →
    (heapifyLoop lt k heap).length = heap.length ∧
    (∀ r, SubHeap lt r (heapifyLoop lt k heap)) ∧
    ((heapifyLoop lt k heap : List α) : Multiset α) = (heap : Multiset α) := by
  intro k
  induction k with
  | zero =>
    intro heap _ hall
    exact ⟨rfl, fun r => hall r (Nat.zero_le r), rfl⟩
  | succ i ih =>
    intro heap hk hall
    have hpos : i < heap.length := by omega
    have hch : ∀ r, i < r → SubHeap lt r heap := fun r hr => hall r (by omega)
    obtain ⟨slen, ssub, sout, sms⟩ :=
      siftup_spec lt hirr hasym hltle hletrans i heap hpos hch
    have hall2 : ∀ r, i ≤ r → SubHeap lt r (siftup lt i heap) := by
      intro r hr
      by_cases hri : r = i
      · subst hri; exact ssub
      · have hrgt : i < r := by omega
        by_cases hin : inSub i r = true
        · -- the subtree of r is inside the subtree of i, which is now a heap
          intro j hj hjin hjr
          have hjin2 : inSub i j = true := inSub_trans i r hin j hjin
          have hji : j ≠ i := by
            have := inSub_ge r j hjin; omega
          exact ssub j hj hjin2 hji
        · -- the subtrees of r and i are disjoint: values unchanged
          intro j hj hjin hjr
          have hjout : inSub i j = false := by
            cases hij : inSub i j
            · rfl
            · rcases inSub_compare i r j hij hjin with h | h
              · rw [h] at hin; exact absurd rfl hin
              · have := inSub_ge r i h; omega
          have hpout : inSub i ((j - 1) / 2) = false := by
            have hpin : inSub r ((j - 1) / 2) = true := inSub_parent r j hjin hjr
            cases hij : inSub i ((j - 1) / 2)
            · rfl
            · rcases inSub_compare i r ((j - 1) / 2) hij hpin with h | h
              · rw [h] at hin; exact absurd rfl hin
              · have := inSub_ge r i h; omega
          rw [sout j hjout, sout ((j - 1) / 2) hpout]
          rw [slen] at hj
          exact hall r (by omega) j hj hjin hjr
    obtain ⟨rlen, rsub, rms⟩ := ih (siftup lt i heap) (by rw [slen]; omega) hall2
    rw [heapifyLoop_succ]
    exact ⟨by rw [rlen, slen], rsub, by rw [rms, sms]⟩

/-- Correctness of CPython `heapify`: the result satisfies the heap
invariant and is a permutation of the input.  No assumption is made on the
input (the disposer calls it after an arbitrary swap-with-last removal). -/
theorem pyHeapify_spec
    (hirr : ∀ a : α, lt a a = false)
    (hasym : ∀ a b : α, lt a b = true → lt b a = false)
    (hltle : ∀ a b c : α, lt a b = true → lt c b = false → lt c a = false)
    (hletrans : ∀ a b c : α, lt b a = false → lt c b = false → lt c a = false)
    (heap : List α) :
    IsHeap lt (pyHeapify lt heap) ∧
    (pyHeapify lt heap).length = heap.length ∧
    ((pyHeapify lt heap : List α) : Multiset α) = (heap : Multiset α) := by
  have hinit : ∀ r, heap.length / 2 ≤ r → SubHeap lt r heap := by
    intro r hr j hj hjin hjr
    have := inSub_child_ge r j hjin hjr
    omega
  obtain ⟨h1, h2, h3⟩ := heapifyLoop_spec lt hirr hasym hltle hletrans
    (heap.length / 2) heap (by omega) hinit
  exact ⟨isHeap_of_subHeap_zero lt _ (h2 0), h1, h3⟩

/-- In a heap, no element is strictly below the root: `heap[0]` is minimal. -/
theorem isHeap_root_min
    (hirr : ∀ a : α, lt a a = false)
    (hletrans : ∀ a b c : α, lt b a = false → lt c b = false → lt c a = false)
    (heap : List α) (hheap : IsHeap lt heap) :
    ∀ j, j < heap.length → lt (heap.getD j default) (heap.getD 0 default) = false := by
  intro j
  induction j using Nat.strong_induction_on with
  | _ j ih =>
    intro hj
    by_cases hj0 : j = 0
    · subst hj0; exact hirr _
    · exact hletrans (heap.getD 0 default) (heap.getD ((j - 1) / 2) default)
        (heap.getD j default)
        (ih ((j - 1) / 2) (by omega) (by omega))
        ((isHeap_iff lt heap).mp hheap j hj hj0)

end HeapLemmas

/-! ### The proposal heap state machine -/

/-- `heappush` instantiated at pages. -/
theorem heappush_page (l : List ProposedIndexPage) (p : ProposedIndexPage)
    (h : IsHeap pageLt l) :
    IsHeap pageLt (heappush pageLt l p) ∧
    (heappush pageLt l p).length = l.length + 1 ∧
    ((heappush pageLt l p : List ProposedIndexPage) : Multiset ProposedIndexPage)
      = (l : Multiset ProposedIndexPage) + {p} :=
  heappush_spec pageLt pageLt_irrefl pageLt_asymm pageLt_lt_le pageLt_le_trans l p h

/-- Zeta-expanded unfolding of the disposer. -/
theorem disposerRun_eq (page : ProposedIndexPage) (l : List ProposedIndexPage) :
    disposerRun page l =
      if l.findIdx (fun q => decide (q = page)) < l.length then
        some (pyHeapify pageLt ((l.set (l.findIdx (fun q => decide (q = page)))
          (l.getD (l.length - 1) default)).dropLast))
      else none := rfl

/-- A successful disposer call removes exactly one occurrence of a page that
compares equal to `page` and re-establishes the heap invariant. -/
theorem disposerRun_eq_some (page : ProposedIndexPage) (l r : List ProposedIndexPage)
    (h : disposerRun page l = some r) :
    IsHeap pageLt r ∧
    (r : Multiset ProposedIndexPage) + {page} = (l : Multiset ProposedIndexPage) ∧
    r.length + 1 = l.length := by
  rw [disposerRun_eq] at h
  by_cases hfound : l.findIdx (fun q => decide (q = page)) < l.length
  · rw [if_pos hfound] at h
    set i := l.findIdx (fun q => decide (q = page)) with hidef
    have hieq : l.getD i default = page :=
      of_decide_eq_true (findIdx_getD (fun q => decide (q = page)) l hfound)
    obtain ⟨p1, p2, p3⟩ := pyHeapify_spec pageLt pageLt_irrefl pageLt_asymm
      pageLt_lt_le pageLt_le_trans ((l.set i (l.getD (l.length - 1) default)).dropLast)
    have hms := multiset_swap_dropLast l i hfound
    obtain rfl : pyHeapify pageLt
        ((l.set i (l.getD (l.length - 1) default)).dropLast) = r := Option.some.inj h
    refine ⟨p1, ?_, ?_⟩
    · rw [p3, ← hieq]
      exact hms
    · rw [p2, List.length_dropLast, List.length_set]
      omega
  · rw [if_neg hfound] at h
    cases h

/-- When no live page compares equal to `page`, `list.index` raises
`ValueError` (modelled as `none`). -/
theorem disposerRun_eq_none (page : ProposedIndexPage) (l : List ProposedIndexPage)
    (habs : page ∉ l) : disposerRun page l = none := by
  rw [disposerRun_eq, if_neg]
  have heq := findIdx_eq_length (fun q => decide (q = page)) l
    (fun a ha => decide_eq_false (fun he => habs (he ▸ ha)))
  omega

/-- When some live page compares equal to `page`, the disposer succeeds. -/
theorem disposerRun_isSome (page : ProposedIndexPage) (l : List ProposedIndexPage)
    (hmem : page ∈ l) :
    l.findIdx (fun q => decide (q = page)) < l.length :=
  findIdx_lt_of_mem (fun q => decide (q = page)) l page hmem (decide_eq_true rfl)

/-- Every reachable `proposed_index_pages` state satisfies the heap
invariant. -/
theorem execOps_isHeap (ops : List HeapOp) : IsHeap pageLt (execOps ops) := by
  suffices h : ∀ (ops : List HeapOp) (l : List ProposedIndexPage),
      IsHeap pageLt l → IsHeap pageLt (List.foldl applyOp l ops) by
    exact h ops [] (fun j _ => absurd j.isLt (by simp))
  intro ops
  induction ops with
  | nil => intro l hl; exact hl
  | cons op ops ih =>
    intro l hl
    rw [List.foldl_cons]
    apply ih
    cases op with
    | propose route priority =>
      exact (heappush_page l _ hl).1
    | revoke route priority =>
      show IsHeap pageLt (applyOp l (HeapOp.revoke route priority))
      rw [applyOp]
      cases hd : disposerRun { priority := -priority, route := route } l with
      | none => exact hl
      | some l2 => exact (disposerRun_eq_some _ l l2 hd).1

/-- The shape of `get_index_url` on a non-empty heap: the element at
position 0, which (by the heap invariant) no live page is strictly below. -/
theorem heap_winner (l : List ProposedIndexPage) (hheap : IsHeap pageLt l)
    (hne : l ≠ []) :
    ∃ p, p ∈ l ∧ get_index_url l = some p.route ∧ ∀ q ∈ l, pageLt q p = false := by
  obtain ⟨x, xs, rfl⟩ : ∃ x xs, l = x :: xs := by
    cases l with
    | nil => exact absurd rfl hne
    | cons x xs => exact ⟨x, xs, rfl⟩
  refine ⟨x, List.mem_cons_self x xs, rfl, ?_⟩
  intro q hq
  obtain ⟨i, hi, hgi⟩ := mem_getD (x :: xs) q hq
  have hmin := isHeap_root_min pageLt pageLt_irrefl pageLt_le_trans (x :: xs)
    hheap i hi
  rw [hgi] at hmin
  simpa using hmin

/-- Unpacking `pageLt q p = false`: `p`'s stored priority is at most `q`'s,
and on stored-priority ties `q`'s route is not (code-point) below `p`'s. -/
theorem pageLt_false_parts (q p : ProposedIndexPage) (h : pageLt q p = false) :
    p.priority ≤ q.priority ∧
    (q.priority = p.priority → strLt q.route p.route = false) := by
  rw [pageLt] at h
  rcases Bool.or_eq_false_iff.mp h with ⟨h1, h2⟩
  refine ⟨?_, ?_⟩
  · have := of_decide_eq_false h1; omega
  · intro heq
    rcases Bool.and_eq_false_iff.mp h2 with h3 | h3
    · exact absurd (decide_eq_true heq) (by rw [h3]; exact Bool.false_ne_true)
    · exact h3

/-- Case-split form of `retryStep`. -/
theorem retryStep_eq (r e : Nat) :
    retryStep r e =
      if reset_threshold ≤ e then some 1
      else if r < max_retries then some (r + 1) else none := by
  rw [retryStep]
  by_cases hc : reset_threshold ≤ e
  · simp [hc, max_retries]
  · simp [hc]

/-! ## The claims -/

/-- C1: for every sequence of `propose_index_page` and disposer calls, the
current winner (`get_index_url`) is the route of a live proposal with maximum
priority among all currently-live proposals; when no proposals are live,
`get_index_url` returns `None`. -/
theorem C1_index_winner_invariant (ops : List HeapOp) :
    (execOps ops = [] → get_index_url (execOps ops) = none) ∧
    (execOps ops ≠ [] →
      ∃ p, p ∈ execOps ops ∧ get_index_url (execOps ops) = some p.route ∧
        ∀ q ∈ execOps ops, proposedPriority q ≤ proposedPriority p) := by
  constructor
  · intro h; rw [h]; rfl
  · intro hne
    obtain ⟨p, hp, hurl, hmax⟩ := heap_winner (execOps ops) (execOps_isHeap ops) hne
    refine ⟨p, hp, hurl, ?_⟩
    intro q hq
    have := (pageLt_false_parts q p (hmax q hq)).1
    rw [proposedPriority, proposedPriority]
    omega

/-- Witness for C1: proposing `docs.index` at priority 1 and `debug.index`
at priority 5 makes the winner a maximal live proposal. -/
theorem C1_index_winner_invariant_witness :
    ∃ p, p ∈ execOps [HeapOp.propose "docs.index" 1, HeapOp.propose "debug.index" 5] ∧
      get_index_url (execOps [HeapOp.propose "docs.index" 1,
        HeapOp.propose "debug.index" 5]) = some p.route ∧
      ∀ q ∈ execOps [HeapOp.propose "docs.index" 1, HeapOp.propose "debug.index" 5],
        proposedPriority q ≤ proposedPriority p :=
  (C1_index_winner_invariant
    [HeapOp.propose "docs.index" 1, HeapOp.propose "debug.index" 5]).2 (by decide)

/-- C2: revocation (swap-with-last, shrink, re-heapify) is correct in the
edge cases: (a) revoking the current winner removes exactly it and promotes a
maximal remaining proposal; (b) revoking the sole remaining proposal leaves
the winner as none; (c) revoking the last-inserted element leaves a valid
heap holding exactly the other proposals. -/
theorem C2_revoke_edge_cases (l : List ProposedIndexPage)
    (hheap : IsHeap pageLt l) :
    (l ≠ [] →
      ∃ r, disposerRun (l.getD 0 default) l = some r ∧
        (r : Multiset ProposedIndexPage) + {l.getD 0 default} =
          (l : Multiset ProposedIndexPage) ∧
        IsHeap pageLt r ∧
        (r ≠ [] → ∃ p, p ∈ r ∧ get_index_url r = some p.route ∧
          ∀ q ∈ r, proposedPriority q ≤ proposedPriority p)) ∧
    (∀ p, l = [p] → disposerRun p l = some [] ∧ get_index_url [] = none) ∧
    (∀ x, ∃ r, disposerRun x (heappush pageLt l x) = some r ∧
      IsHeap pageLt r ∧
      (r : Multiset ProposedIndexPage) = (l : Multiset ProposedIndexPage)) := by
  refine ⟨?_, ?_, ?_⟩
  · intro hne
    have hlen : 0 < l.length := by
      cases l with
      | nil => exact absurd rfl hne
      | cons x xs => simp
    have hmem : l.getD 0 default ∈ l := getD_mem l 0 hlen
    have hfound := disposerRun_isSome (l.getD 0 default) l hmem
    have hsome : disposerRun (l.getD 0 default) l =
        some (pyHeapify pageLt
          ((l.set (l.findIdx (fun q => decide (q = l.getD 0 default)))
            (l.getD (l.length - 1) default)).dropLast)) := by
      rw [disposerRun_eq, if_pos hfound]
    obtain ⟨hh, hms, _⟩ := disposerRun_eq_some (l.getD 0 default) l _ hsome
    refine ⟨_, hsome, hms, hh, ?_⟩
    intro hrne
    obtain ⟨p, hp, hurl, hmax⟩ := heap_winner _ hh hrne
    refine ⟨p, hp, hurl, ?_⟩
    intro q hq
    have := (pageLt_false_parts q p (hmax q hq)).1
    rw [proposedPriority, proposedPriority]
    omega
  · intro p hp
    subst hp
    constructor
    · rw [disposerRun_eq]
      have hidx : List.findIdx (fun q => decide (q = p)) [p] = 0 := by
        rw [List.findIdx_cons, show (decide (p = p)) = true from decide_eq_true rfl]
        rfl
      rw [hidx, if_pos (by simp : (0 : Nat) < [p].length)]
      congr 1
      simp [pyHeapify, heapifyLoop]
    · rfl
  · intro x
    obtain ⟨hLheap, _, hLms⟩ := heappush_page l x hheap
    have hmem : x ∈ heappush pageLt l x := by
      have hm : x ∈ ((heappush pageLt l x : List ProposedIndexPage) :
          Multiset ProposedIndexPage) := by
        rw [hLms]; simp
      simpa using hm
    have hfound := disposerRun_isSome x (heappush pageLt l x) hmem
    have hsome : disposerRun x (heappush pageLt l x) =
        some (pyHeapify pageLt
          (((heappush pageLt l x).set
            ((heappush pageLt l x).findIdx (fun q => decide (q = x)))
            ((heappush pageLt l x).getD ((heappush pageLt l x).length - 1) default)).dropLast)) := by
      rw [disposerRun_eq, if_pos hfound]
    obtain ⟨hh, hms, _⟩ := disposerRun_eq_some x (heappush pageLt l x) _ hsome
    refine ⟨_, hsome, hh, ?_⟩
    have hcancel : (pyHeapify pageLt
        (((heappush pageLt l x).set
          ((heappush pageLt l x).findIdx (fun q => decide (q = x)))
          ((heappush pageLt l x).getD ((heappush pageLt l x).length - 1) default)).dropLast) :
        Multiset ProposedIndexPage) + {x} =
        (l : Multiset ProposedIndexPage) + {x} := by
      rw [hms, hLms]
    exact add_right_cancel hcancel

/-- The heap holding `debug.index` (stored priority −5, i.e. proposed
priority 5) at the root and `docs.index` (proposed 1) below it. -/
def demoPages : List ProposedIndexPage :=
  [ { priority := -5, route := "debug.index" },
    { priority := -1, route := "docs.index" } ]

/-- Witness for C2 at `demoPages`: revoking the winner promotes
`docs.index`. -/
theorem C2_revoke_edge_cases_witness :
    ∃ r, disposerRun (demoPages.getD 0 default) demoPages = some r ∧
      (r : Multiset ProposedIndexPage) + {demoPages.getD 0 default} =
        (demoPages : Multiset ProposedIndexPage) ∧
      IsHeap pageLt r ∧
      (r ≠ [] → ∃ p, p ∈ r ∧ get_index_url r = some p.route ∧
        ∀ q ∈ r, proposedPriority q ≤ proposedPriority p) :=
  (C2_revoke_edge_cases demoPages (by decide)).1 (by decide)

/-- C3: the serve retry policy.  The step facts mirror the handler: a failure
after at least `reset_threshold` units of uptime resets the counter (so the
next counter value is 1); below the threshold the counter increments while it
is below `max_retries`, and otherwise the error is re-raised.  Consequently
failures with uptimes `[2, 2, 2]` are all retried, a fourth such failure is
fatal, and if every uptime is at least the threshold the loop never becomes
fatal. -/
theorem C3_retry_policy :
    (∀ r e, reset_threshold ≤ e → retryStep r e = some 1) ∧
    (∀ r e, e < reset_threshold → r < max_retries → retryStep r e = some (r + 1)) ∧
    (∀ r e, e < reset_threshold → max_retries ≤ r → retryStep r e = none) ∧
    runFailures 0 [2, 2, 2] = some 3 ∧
    runFailures 0 [2, 2, 2, 2] = none ∧
    (∀ es, (∀ e ∈ es, reset_threshold ≤ e) → (runFailures 0 es).isSome = true) := by
  refine ⟨?_, ?_, ?_, by decide, by decide, ?_⟩
  · intro r e he
    rw [retryStep_eq, if_pos he]
  · intro r e he hr
    rw [retryStep_eq, if_neg (by omega), if_pos hr]
  · intro r e he hr
    rw [retryStep_eq, if_neg (by omega), if_neg (by omega)]
  · intro es hes
    suffices h : ∀ (es : List Nat) (r : Nat), (∀ e ∈ es, reset_threshold ≤ e) →
        (runFailures r es).isSome = true from h es 0 hes
    intro es
    induction es with
    | nil => intro r _; rfl
    | cons e es ih =>
      intro r hes
      have h1 : retryStep r e = some 1 := by
        rw [retryStep_eq, if_pos (hes e (List.mem_cons_self e es))]
      show (runFailures r (e :: es)).isSome = true
      rw [runFailures, h1]
      exact ih 1 (fun x hx => hes x (List.mem_cons_of_mem e hx))

/-- Witness for C3: with inter-failure uptimes `[6, 6, 6, 6]` (all at or
above the threshold) the service never reaches the fatal state. -/
theorem C3_retry_policy_witness :
    (runFailures 0 [6, 6, 6, 6]).isSome = true :=
  C3_retry_policy.2.2.2.2.2 [6, 6, 6, 6] (by decide)

/-- C4 counterexample: two proposals with the same (maximum) priority,
`"a"` inserted first and `"b"` inserted most recently.  The winner is
`"a"`, not the most-recently-inserted `"b"`: the `@dataclass(order=True)`
comparison breaks priority ties by the route string, not by insertion
order. -/
theorem C4_counterexample :
    get_index_url (execOps [HeapOp.propose "a" 0, HeapOp.propose "b" 0])
      = some "a" ∧
    get_index_url (execOps [HeapOp.propose "a" 0, HeapOp.propose "b" 0])
      ≠ some "b" := by
  decide

/-- C4 (amended): when live proposals share the same (maximum) priority, the
current winner is one whose route string is not code-point-greater than any
of theirs — i.e. the lexicographically smallest route among the tied
proposals wins, regardless of insertion order. -/
theorem C4_amended_tiebreak (ops : List HeapOp) (hne : execOps ops ≠ []) :
    ∃ p, p ∈ execOps ops ∧ get_index_url (execOps ops) = some p.route ∧
      ∀ q ∈ execOps ops, proposedPriority q = proposedPriority p →
        strLt q.route p.route = false := by
  obtain ⟨p, hp, hurl, hmax⟩ := heap_winner (execOps ops) (execOps_isHeap ops) hne
  refine ⟨p, hp, hurl, ?_⟩
  intro q hq heq
  apply (pageLt_false_parts q p (hmax q hq)).2
  rw [proposedPriority, proposedPriority] at heq
  omega

/-- Witness for the amended C4 at the counterexample's own input. -/
theorem C4_amended_tiebreak_witness :
    ∃ p, p ∈ execOps [HeapOp.propose "a" 0, HeapOp.propose "b" 0] ∧
      get_index_url (execOps [HeapOp.propose "a" 0, HeapOp.propose "b" 0])
        = some p.route ∧
      ∀ q ∈ execOps [HeapOp.propose "a" 0, HeapOp.propose "b" 0],
        proposedPriority q = proposedPriority p →
          strLt q.route p.route = false :=
  C4_amended_tiebreak [HeapOp.propose "a" 0, HeapOp.propose "b" 0] (by decide)

/-- C5: a request to the root path with a current index-page winner yields a
redirect to the winner's resolved URL, with the query string appended
verbatim when non-empty; with no winner the root path yields 404.  (A
resolved URL is never empty, hence the hypothesis.) -/
theorem C5_root_redirect (url q : String) (hurl : url ≠ "") :
    index_route (some url) "" = HttpResponse.redirectTo url ∧
    (q ≠ "" → index_route (some url) q = HttpResponse.redirectTo (url ++ "?" ++ q)) ∧
    index_route none q = HttpResponse.notFound := by
  refine ⟨?_, ?_, rfl⟩
  · simp [index_route, pyTruthy, hurl]
  · intro hq
    simp [index_route, pyTruthy, hurl, hq]

/-- Witness for C5 at a concrete URL and query string. -/
theorem C5_root_redirect_witness :
    index_route (some "/app/index") "" = HttpResponse.redirectTo "/app/index" ∧
    ("x=1" ≠ "" → index_route (some "/app/index") "x=1" =
      HttpResponse.redirectTo ("/app/index" ++ "?" ++ "x=1")) ∧
    index_route none "x=1" = HttpResponse.notFound :=
  C5_root_redirect "/app/index" "x=1" (by decide)

/-- C6: the scoped variants acquire on entry and release exactly once on
every exit path.  `mounted` (when `mount` returned a disposer) emits the
mount, then the body's events, then exactly one revoke — for a normal return
and for an exception alike; `proposed_index_page` likewise emits its propose,
the body's events, and exactly one dispose. -/
theorem C6_scoped_release (body : List Ev) (k : ExitKind) :
    mounted_cm (some [Ev.revokeApp]) (body, k) =
      (Ev.mountApp :: (body ++ [Ev.revokeApp]), k) ∧
    proposed_index_page_cm (body, k) =
      (Ev.proposePage :: (body ++ [Ev.disposePage]), k) ∧
    (Ev.revokeApp ∉ body →
      (mounted_cm (some [Ev.revokeApp]) (body, k)).1.count Ev.revokeApp = 1) ∧
    (Ev.disposePage ∉ body →
      (proposed_index_page_cm (body, k)).1.count Ev.disposePage = 1) := by
  refine ⟨rfl, rfl, ?_, ?_⟩
  · intro h
    show (Ev.mountApp :: (body ++ [Ev.revokeApp])).count Ev.revokeApp = 1
    rw [List.count_cons, List.count_append]
    simp [List.count_eq_zero.mpr h]
  · intro h
    show (Ev.proposePage :: (body ++ [Ev.disposePage])).count Ev.disposePage = 1
    rw [List.count_cons, List.count_append]
    simp [List.count_eq_zero.mpr h]

/-- Witness for C6 on an error exit with a one-step body. -/
theorem C6_scoped_release_witness :
    (mounted_cm (some [Ev.revokeApp]) ([Ev.bodyStep], ExitKind.raised)).1.count
      Ev.revokeApp = 1 ∧
    (proposed_index_page_cm ([Ev.bodyStep], ExitKind.raised)).1.count
      Ev.disposePage = 1 :=
  ⟨(C6_scoped_release [Ev.bodyStep] ExitKind.raised).2.2.1 (by decide),
   (C6_scoped_release [Ev.bodyStep] ExitKind.raised).2.2.2 (by decide)⟩

/-- C8 counterexample: with the `host` key omitted, the address computed by
`load` uses `"localhost"`, not `"127.0.0.1"` as the claim states. -/
theorem C8_counterexample :
    load_host none = "localhost" ∧ load_host none ≠ "127.0.0.1" := by
  decide

/-- C8 (amended): when the configuration omits the `host` key, `load`
defaults the host to `"localhost"` (while the configuration schema advertises
a default of `"127.0.0.1"` for the same key). -/
theorem C8_amended_localhost :
    load_host none = "localhost" ∧ schema_host_default = "127.0.0.1" :=
  ⟨rfl, rfl⟩

/-- C9: once no live proposal compares equal to the disposer's page (e.g.
after the disposer already removed it), calling the disposer again raises
`ValueError` (modelled as `none`) instead of being a no-op: `list.index`
raises on a missing value, and the `index >= 0` guard never sees a negative
index. -/
theorem C9_second_dispose_raises (page : ProposedIndexPage)
    (l r : List ProposedIndexPage)
    (hfirst : disposerRun page l = some r) (habs : page ∉ r) :
    disposerRun page r = none :=
  disposerRun_eq_none page r habs

/-- Witness for C9: propose-then-dispose leaves the empty state, and a second
dispose raises. -/
theorem C9_second_dispose_raises_witness :
    disposerRun { priority := 0, route := "x" } [] = none :=
  C9_second_dispose_raises { priority := 0, route := "x" }
    [{ priority := 0, route := "x" }] [] (by decide) (by decide)

/-- C10: when the exported address is `None` (`load` never ran, or `unload`
cleared it), `run` logs a warning and returns normally — it does not bind a
listener, enter the retry loop, or raise, whatever failures would have
followed. -/
theorem C10_run_without_address (failures : List Nat) :
    run_model none failures = RunOutcome.warnedNoAddress := rfl

/-! ## Request routing (spec-modelled)

The extension mounts ASGI sub-applications through `RoutingMiddleware`
(`from .routing import RoutingMiddleware`); `routing.py` itself is not part
of the sources, so the definitions below are modelled from §4.2 of the spec:
filter Mount Table entries whose accepted scopes contain the connection's
scope kind (or are unrestricted) and whose path prefix is a prefix of the
request path; among matches pick the longest matching prefix first, breaking
remaining ties by highest priority, then by earliest registration. -/

/-- Modelled from the spec: a Mount Table entry of the missing
`RoutingMiddleware` — a sub-application handle with its path prefix,
accepted scope kinds (`none` means unrestricted) and priority. -/
structure MountEntry where
  appId : Nat
  mountPath : String
  scopes : Option (List String)
  priority : Int
deriving DecidableEq, Repr

/-- `s` starts with `p`, element by element (code-point prefix test). -/
def listStartsWith : List Char → List Char → Bool
  | _, [] => true
  | [], _ :: _ => false
  | a :: as, b :: bs => a == b && listStartsWith as bs

/-- `s` starts with `p`. -/
def strStartsWith (s p : String) : Bool := listStartsWith s.data p.data

/-- Modelled from the spec: an entry of the missing `RoutingMiddleware`
matches a connection when its accepted scopes contain the scope kind (or are
unrestricted) and its path prefix is a prefix of the request path. -/
def entryMatches (e : MountEntry) (scopeKind path : String) : Bool :=
  (match e.scopes with
   | none => true
   | some ss => ss.contains scopeKind) && strStartsWith path e.mountPath

/-- Modelled from the spec: `cand` beats `cur` in the missing
`RoutingMiddleware`'s selection exactly when its matched prefix is longer,
or equally long with strictly higher priority.  (Ties keep the earlier
registration.) -/
def preferOver (cand cur : MountEntry) : Bool :=
  decide (cur.mountPath.length < cand.mountPath.length) ||
    (decide (cur.mountPath.length = cand.mountPath.length) &&
      decide (cur.priority < cand.priority))

/-- The selection key of an entry: (prefix length, priority),
lexicographically. -/
def rkey (e : MountEntry) : Lex (Nat × Int) := toLex (e.mountPath.length, e.priority)

theorem preferOver_iff (cand cur : MountEntry) :
    preferOver cand cur = true ↔ rkey cur < rkey cand := by
  rw [rkey, rkey, Prod.Lex.lt_iff, preferOver]
  constructor
  · intro h
    rcases Bool.or_eq_true_iff.mp h with h1 | h2
    · exact Or.inl (of_decide_eq_true h1)
    · rcases Bool.and_eq_true_iff.mp h2 with ⟨h2a, h2b⟩
      exact Or.inr ⟨of_decide_eq_true h2a, of_decide_eq_true h2b⟩
  · intro h
    rcases h with h1 | ⟨h2a, h2b⟩
    · exact Bool.or_eq_true_iff.mpr (Or.inl (decide_eq_true h1))
    · exact Bool.or_eq_true_iff.mpr (Or.inr (Bool.and_eq_true_iff.mpr
        ⟨decide_eq_true h2a, decide_eq_true h2b⟩))

theorem preferOver_false_iff (cand cur : MountEntry) :
    preferOver cand cur = false ↔ rkey cand ≤ rkey cur := by
  rw [← Bool.not_eq_true, preferOver_iff, not_lt]

theorem preferOver_irrefl (e : MountEntry) : preferOver e e = false :=
  (preferOver_false_iff e e).mpr le_rfl

theorem preferOver_trans (x b e : MountEntry) (h1 : preferOver b x = true)
    (h2 : preferOver e b = true) : preferOver e x = true :=
  (preferOver_iff e x).mpr
    (lt_trans ((preferOver_iff b x).mp h1) ((preferOver_iff e b).mp h2))

theorem preferOver_absorb (x b e : MountEntry) (h1 : preferOver e b = true)
    (h2 : preferOver x b = false) : preferOver e x = true :=
  (preferOver_iff e x).mpr
    (lt_of_le_of_lt ((preferOver_false_iff x b).mp h2) ((preferOver_iff e b).mp h1))

theorem preferOver_neg (x b e : MountEntry) (h1 : preferOver e b = true)
    (h2 : preferOver x b = false) : preferOver x e = false :=
  (preferOver_false_iff x e).mpr
    (le_of_lt (lt_of_le_of_lt ((preferOver_false_iff x b).mp h2)
      ((preferOver_iff e b).mp h1)))

/-- Modelled from the spec: the missing `RoutingMiddleware`'s selection scan
over the mount table in registration order, carrying the best entry seen so
far (replaced only on a strict improvement, so the earliest of equals is
kept). -/
def routeAux (scopeKind path : String) :
    Option MountEntry → List MountEntry → Option MountEntry
  | best, [] => best
  | best, e :: rest =>
    if entryMatches e scopeKind path then
      match best with
      | none => routeAux scopeKind path (some e) rest
      | some b =>
        routeAux scopeKind path (some (if preferOver e b then e else b)) rest
    else
      routeAux scopeKind path best rest

/-- Modelled from the spec: `route(scopeKind, path)` of the missing
`RoutingMiddleware` — the selected mount entry, or `none` (a `RoutingMiss`)
when no entry matches. -/
def route (table : List MountEntry) (scopeKind path : String) :
    Option MountEntry :=
  routeAux scopeKind path none table

theorem route_eq (table : List MountEntry) (scopeKind path : String) :
    route table scopeKind path = routeAux scopeKind path none table := rfl

theorem routeAux_cons_none (scopeKind path : String) (e : MountEntry)
    (rest : List MountEntry) :
    routeAux scopeKind path none (e :: rest) =
      if entryMatches e scopeKind path then routeAux scopeKind path (some e) rest
      else routeAux scopeKind path none rest := rfl

theorem routeAux_cons_some (scopeKind path : String) (b e : MountEntry)
    (rest : List MountEntry) :
    routeAux scopeKind path (some b) (e :: rest) =
      if entryMatches e scopeKind path then
        routeAux scopeKind path (some (if preferOver e b then e else b)) rest
      else routeAux scopeKind path (some b) rest := rfl

/-- The accumulator invariant of `routeAux` over the processed part of the
mount table: `none` means nothing matched so far; `some b` means `b` is a
match no processed entry strictly beats, and every processed entry
registered before `b` that matches is strictly beaten by `b`. -/
def RouteInv (scopeKind path : String) (seen : List MountEntry) :
    Option MountEntry → Prop
  | none => ∀ e ∈ seen, entryMatches e scopeKind path = false
  | some b => entryMatches b scopeKind path = true ∧
      (∀ e ∈ seen, entryMatches e scopeKind path = true → preferOver e b = false) ∧
      ∃ t1 t2, seen = t1 ++ b :: t2 ∧
        ∀ e ∈ t1, entryMatches e scopeKind path = true → preferOver b e = true

theorem routeAux_inv (scopeKind path : String) :
    ∀ (rest : List MountEntry) (best : Option MountEntry)
      (seen : List MountEntry),
    RouteInv scopeKind path seen best →
    RouteInv scopeKind path (seen ++ rest) (routeAux scopeKind path best rest) := by
  intro rest
  induction rest with
  | nil =>
    intro best seen h
    simpa using h
  | cons e rest ih =>
    intro best seen h
    rw [show seen ++ e :: rest = (seen ++ [e]) ++ rest from by simp]
    by_cases hm : entryMatches e scopeKind path = true
    · cases best with
      | none =>
        rw [routeAux_cons_none, if_pos hm]
        apply ih
        refine ⟨hm, ?_, seen, [], by simp, ?_⟩
        · intro x hx hmx
          rcases List.mem_append.mp hx with hx | hx
          · exact absurd hmx (by rw [h x hx]; exact Bool.false_ne_true)
          · rw [List.mem_singleton.mp hx]
            exact preferOver_irrefl e
        · intro x hx hmx
          exact absurd hmx (by rw [h x hx]; exact Bool.false_ne_true)
      | some b =>
        obtain ⟨hb, hopt, t1, t2, hdec, hbest⟩ := h
        rw [routeAux_cons_some, if_pos hm]
        by_cases hpref : preferOver e b = true
        · rw [if_pos hpref]
          apply ih
          refine ⟨hm, ?_, seen, [], by simp, ?_⟩
          · intro x hx hmx
            rcases List.mem_append.mp hx with hx | hx
            · exact preferOver_neg x b e hpref (hopt x hx hmx)
            · rw [List.mem_singleton.mp hx]
              exact preferOver_irrefl e
          · intro x hx hmx
            rw [hdec] at hx
            rcases List.mem_append.mp hx with hx | hx
            · exact preferOver_trans x b e (hbest x hx hmx) hpref
            · rcases List.mem_cons.mp hx with hx | hx
              · rw [hx]; exact hpref
              · have hxseen : x ∈ seen := by
                  rw [hdec]
                  exact List.mem_append.mpr (Or.inr (List.mem_cons_of_mem b hx))
                exact preferOver_absorb x b e hpref (hopt x hxseen hmx)
        · rw [if_neg hpref]
          apply ih
          refine ⟨hb, ?_, t1, t2 ++ [e], by rw [hdec]; simp, hbest⟩
          intro x hx hmx
          rcases List.mem_append.mp hx with hx | hx
          · exact hopt x hx hmx
          · rw [List.mem_singleton.mp hx]
            exact Bool.eq_false_iff.mpr hpref
    · have hm' : entryMatches e scopeKind path = false := Bool.eq_false_iff.mpr hm
      cases best with
      | none =>
        rw [routeAux_cons_none, if_neg hm]
        apply ih
        intro x hx
        rcases List.mem_append.mp hx with hx | hx
        · exact h x hx
        · rw [List.mem_singleton.mp hx]; exact hm'
      | some b =>
        obtain ⟨hb, hopt, t1, t2, hdec, hbest⟩ := h
        rw [routeAux_cons_some, if_neg hm]
        apply ih
        refine ⟨hb, ?_, t1, t2 ++ [e], by rw [hdec]; simp, hbest⟩
        intro x hx hmx
        rcases List.mem_append.mp hx with hx | hx
        · exact hopt x hx hmx
        · rw [List.mem_singleton.mp hx] at hmx
          exact absurd hmx (by rw [hm']; exact Bool.false_ne_true)

/-- The two-entry table of the spec's longest-prefix example. -/
def demoTable : List MountEntry :=
  [ { appId := 0, mountPath := "/a", scopes := none, priority := 0 },
    { appId := 1, mountPath := "/a/b", scopes := none, priority := 0 } ]

/-- The `/a/b` entry of `demoTable`. -/
def demoWinner : MountEntry :=
  { appId := 1, mountPath := "/a/b", scopes := none, priority := 0 }

/-- C7 (spec-modelled): routing selects, among entries accepting the scope
kind whose path prefix matches, the one with the longest prefix, then
highest priority, then earliest registration; and with mounts at `/a` and
`/a/b` (both priority 0), a request to `/a/b/c` routes to the `/a/b`
mount. -/
theorem C7_routing (table : List MountEntry) (scopeKind path : String) :
    (route table scopeKind path = none →
      ∀ e ∈ table, entryMatches e scopeKind path = false) ∧
    (∀ r, route table scopeKind path = some r →
      entryMatches r scopeKind path = true ∧
      (∀ e ∈ table, entryMatches e scopeKind path = true →
        preferOver e r = false) ∧
      ∃ t1 t2, table = t1 ++ r :: t2 ∧
        ∀ e ∈ t1, entryMatches e scopeKind path = true →
          preferOver r e = true) ∧
    route demoTable "http" "/a/b/c" = some demoWinner := by
  have hinv := routeAux_inv scopeKind path table none [] (by intro e he; simp at he)
  rw [List.nil_append] at hinv
  refine ⟨?_, ?_, by decide⟩
  · intro hnone
    rw [route_eq] at hnone
    rw [hnone] at hinv
    exact hinv
  · intro r hr
    rw [route_eq] at hr
    rw [hr] at hinv
    exact hinv

/-- Witness for C7 at the spec's example: the `/a/b` mount matches, no table
entry beats it, and the only earlier entry (`/a`) is strictly beaten. -/
theorem C7_routing_witness :
    entryMatches demoWinner "http" "/a/b/c" = true ∧
    (∀ e ∈ demoTable, entryMatches e "http" "/a/b/c" = true →
      preferOver e demoWinner = false) ∧
    ∃ t1 t2, demoTable = t1 ++ demoWinner :: t2 ∧
      ∀ e ∈ t1, entryMatches e "http" "/a/b/c" = true →
        preferOver demoWinner e = true :=
  (C7_routing demoTable "http" "/a/b/c").2.1 demoWinner (by decide)

end HttpServer
